import Mathlib

/-!
Verification of the partition-pruning engine of pg_pathman
(`select_range_partitions`, `walk_expr_tree` with its handlers, and
`wrapper_make_expression`), shallowly embedded from `pg_pathman.c`.

Key values are embedded as `Int`; partition bounds as `Bound`
(finite value or an infinity); selectivities (`double` in C) as `ℚ`.
Supporting utilities that the module calls but whose bodies live in other
translation units (the rangeset algebra of `rangeset.c`, `cmp_bounds`,
`hash_to_part_index`) are modelled from the specification, as marked on
each such definition.
-/

set_option maxHeartbeats 1000000

namespace PgPathman

/-- Tag of an index range: `IR_COMPLETE` means every row of the span
satisfies the predicate, `IR_LOSSY` means the predicate must be re-checked. -/
inductive Tag where
  | IR_COMPLETE
  | IR_LOSSY
deriving DecidableEq, Repr

export Tag (IR_COMPLETE IR_LOSSY)

/-- A span of partition indices `[lower, upper]` with a tag. -/
structure IRange where
  lower : Nat
  upper : Nat
  tag : Tag
deriving DecidableEq, Repr

/-- A rangeset: a list of tagged index ranges. -/
abbrev RangeSet := List IRange

/-- `make_irange` constructor. -/
def make_irange (lower upper : Nat) (tag : Tag) : IRange := ⟨lower, upper, tag⟩

/-- Modelled from the spec: the set of partition indices covered by a
rangeset ("total count of indices covered" counts exactly this set). -/
def covSet (rs : RangeSet) : Finset Nat :=
  rs.toFinset.biUnion (fun r => Finset.Icc r.lower r.upper)

/-- Modelled from the spec: `length(A)`, the total count of indices covered. -/
def irange_list_length (rs : RangeSet) : Nat := (covSet rs).card

/-- Modelled from the spec: `findTag(A, index) -> (found, lossy)`,
membership lookup with tag. -/
def irange_list_find (rs : RangeSet) (i : Nat) : Bool × Bool :=
  match rs.find? (fun r => decide (r.lower ≤ i ∧ i ≤ r.upper)) with
  | some r => (true, r.tag = IR_LOSSY)
  | none => (false, false)

/-- Tag of a rangeset at one index (`none` when the index is uncovered). -/
def tagAt (rs : RangeSet) (i : Nat) : Option Tag :=
  match rs.find? (fun r => decide (r.lower ≤ i ∧ i ≤ r.upper)) with
  | some r => some r.tag
  | none => none

/-- Modelled from the spec: pointwise tag of a union — COMPLETE if either
contributing span was COMPLETE at that point, else LOSSY. -/
def unionTag : Option Tag → Option Tag → Option Tag
  | some a, some b =>
      some (if a = IR_COMPLETE ∨ b = IR_COMPLETE then IR_COMPLETE else IR_LOSSY)
  | some a, none => some a
  | none, some b => some b
  | none, none => none

/-- Modelled from the spec: pointwise tag of an intersection — LOSSY unless
both contributing spans are COMPLETE. -/
def interTag : Option Tag → Option Tag → Option Tag
  | some a, some b =>
      some (if a = IR_COMPLETE ∧ b = IR_COMPLETE then IR_COMPLETE else IR_LOSSY)
  | _, _ => none

/-- One step of rebuilding a canonical (sorted, non-overlapping, merged)
rangeset: append index `i` with an optional tag to a reversed accumulator,
merging with the previous run when adjacent and equally tagged. -/
def addPointRev (acc : RangeSet) (i : Nat) : Option Tag → RangeSet
  | none => acc
  | some tg =>
    match acc with
    | r :: rest =>
        if r.upper + 1 = i ∧ r.tag = tg then ⟨r.lower, i, tg⟩ :: rest
        else ⟨i, i, tg⟩ :: r :: rest
    | [] => [⟨i, i, tg⟩]

/-- Accumulator of `canonicalize` after consuming indices `0..n-1` (reversed). -/
def canonAcc (f : Nat → Option Tag) (n : Nat) : RangeSet :=
  (List.range n).foldl (fun acc i => addPointRev acc i (f i)) []

/-- Builds the canonical sorted/non-overlapping/merged rangeset whose tag at
each index `i ≤ bound` is `f i`. -/
def canonicalize (f : Nat → Option Tag) (bound : Nat) : RangeSet :=
  (canonAcc f (bound + 1)).reverse

/-- Largest upper bound appearing in a rangeset. -/
def maxUpper (rs : RangeSet) : Nat := rs.foldr (fun r m => max r.upper m) 0

/-- Modelled from the spec: `union(A, B)` merges two tagged rangesets;
where spans overlap the tag is COMPLETE if either contributing span was
COMPLETE at that point, else LOSSY; the output is sorted/merged. -/
def irange_list_union (a b : RangeSet) : RangeSet :=
  canonicalize (fun i => unionTag (tagAt a i) (tagAt b i)) (max (maxUpper a) (maxUpper b))

/-- Modelled from the spec: `intersect(A, B)` computes overlap spans; the
overlap tag is LOSSY unless both contributing spans are COMPLETE; the
output is sorted/merged. -/
def irange_list_intersection (a b : RangeSet) : RangeSet :=
  canonicalize (fun i => interTag (tagAt a i) (tagAt b i)) (max (maxUpper a) (maxUpper b))

/-! ### Bounds and the comparator -/

/-- Modelled from the spec: a `Bound` is a finite scalar or ±infinity. -/
inductive Bound where
  | minf
  | fin (v : Int)
  | pinf
deriving DecidableEq, Repr

/-- Three-way comparison of integers, returning -1/0/1. -/
def cmpInt (a b : Int) : Int := if a < b then -1 else if a = b then 0 else 1

/-- Modelled from the spec: `cmp_bounds`, a three-way total-order comparator
with ±infinity comparing as expected against any finite value. -/
def cmp_bounds : Bound → Bound → Int
  | .minf, .minf => 0
  | .minf, .fin _ => -1
  | .minf, .pinf => -1
  | .fin _, .minf => 1
  | .fin a, .fin b => cmpInt a b
  | .fin _, .pinf => -1
  | .pinf, .minf => 1
  | .pinf, .fin _ => 1
  | .pinf, .pinf => 0

/-- Interpretation of a `Bound` in the linear order `WithBot (WithTop ℤ)`,
used to reason about the comparator. -/
def Bound.toL : Bound → WithBot (WithTop ℤ)
  | .minf => ⊥
  | .fin v => ((v : WithTop ℤ) : WithBot (WithTop ℤ))
  | .pinf => ((⊤ : WithTop ℤ) : WithBot (WithTop ℤ))

/-! ### RANGE partition pruning (`select_range_partitions`) -/

/-- A RANGE partition's bounds, covering keys in `[min, max)`. -/
structure RangeEntry where
  min : Bound
  max : Bound
deriving DecidableEq, Repr

/-- Placeholder entry for out-of-bounds array reads (provably unreachable). -/
def dummyRE : RangeEntry := ⟨.minf, .minf⟩

abbrev BTLessStrategyNumber : Nat := 1
abbrev BTLessEqualStrategyNumber : Nat := 2
abbrev BTEqualStrategyNumber : Nat := 3
abbrev BTGreaterEqualStrategyNumber : Nat := 4
abbrev BTGreaterStrategyNumber : Nat := 5

/-- Outcome of the binary search inside `select_range_partitions`. -/
inductive SearchResult where
  | found (i : Int) (lossy : Bool)
  | gap
deriving DecidableEq, Repr

/-- The `while (true)` binary search of `select_range_partitions`
(pg_pathman.c lines 563-610), with the C `int` index arithmetic carried
out in `Int` (C division truncates toward zero, hence `Int.tdiv`). -/
def binary_search_ranges (ranges : List RangeEntry) (strategy : Nat)
    (value_bound : Bound) (startidx endidx : Int) : SearchResult :=
  let i : Int := startidx + Int.tdiv (endidx - startidx) 2
  let re := ranges.getD i.toNat dummyRE
  let cmp_min := cmp_bounds value_bound re.min
  let cmp_max := cmp_bounds value_bound re.max
  let is_less : Prop := cmp_min < 0 ∨ (cmp_min = 0 ∧ strategy = BTLessStrategyNumber)
  let is_greater : Prop := cmp_max > 0 ∨ (cmp_max ≥ 0 ∧ strategy ≠ BTLessStrategyNumber)
  if ¬ is_less ∧ ¬ is_greater then
    let lossy : Bool :=
      ! decide ((strategy = BTGreaterEqualStrategyNumber ∧ cmp_min = 0) ∨
                (strategy = BTLessStrategyNumber ∧ cmp_max = 0))
    .found i lossy
  else if startidx ≥ endidx then .gap
  else if h : is_less then
    binary_search_ranges ranges strategy value_bound startidx (i - 1)
  else
    binary_search_ranges ranges strategy value_bound (i + 1) endidx
termination_by (endidx + 1 - startidx).toNat
decreasing_by
  all_goals
    have hdiv : Int.tdiv (endidx - startidx) 2 = (endidx - startidx) / 2 :=
      Int.tdiv_eq_ediv (by omega) (by omega)
    omega

/-- `select_range_partitions` (pg_pathman.c lines 481-662): given a value,
the ordered ranges array and a btree strategy, returns the selected
rangeset together with the `found_gap` flag; `none` models the
`elog(ERROR)` on an unknown strategy. -/
def select_range_partitions (value : Int) (ranges : List RangeEntry)
    (strategy : Nat) : Option (RangeSet × Bool) :=
  let nranges : Int := ranges.length
  let value_bound : Bound := .fin value
  if ranges.length = 0 then some ([], false)
  else
    let cmp_min := cmp_bounds value_bound (ranges.getD 0 dummyRE).min
    let cmp_max := cmp_bounds value_bound (ranges.getD (ranges.length - 1) dummyRE).max
    if (cmp_min ≤ 0 ∧ strategy = BTLessStrategyNumber) ∨
       (cmp_min < 0 ∧ (strategy = BTLessEqualStrategyNumber ∨
                       strategy = BTEqualStrategyNumber)) then
      some ([], false)
    else if cmp_max ≥ 0 ∧ (strategy = BTGreaterEqualStrategyNumber ∨
                           strategy = BTGreaterStrategyNumber ∨
                           strategy = BTEqualStrategyNumber) then
      some ([], false)
    else if (cmp_min < 0 ∧ strategy = BTGreaterStrategyNumber) ∨
            (cmp_min ≤ 0 ∧ strategy = BTGreaterEqualStrategyNumber) then
      some ([make_irange 0 (ranges.length - 1) IR_COMPLETE], false)
    else if cmp_max ≥ 0 ∧ (strategy = BTLessEqualStrategyNumber ∨
                           strategy = BTLessStrategyNumber) then
      some ([make_irange 0 (ranges.length - 1) IR_COMPLETE], false)
    else
      match binary_search_ranges ranges strategy value_bound 0 (nranges - 1) with
      | .gap => some ([], true)
      | .found i lossy =>
        if strategy = BTLessStrategyNumber ∨ strategy = BTLessEqualStrategyNumber then
          some (if lossy then
                  (if 0 < i then [make_irange 0 (i.toNat - 1) IR_COMPLETE] else []) ++
                  [make_irange i.toNat i.toNat IR_LOSSY]
                else [make_irange 0 i.toNat IR_COMPLETE], false)
        else if strategy = BTEqualStrategyNumber then
          some ([make_irange i.toNat i.toNat IR_LOSSY], false)
        else if strategy = BTGreaterEqualStrategyNumber ∨
                strategy = BTGreaterStrategyNumber then
          some (if lossy then
                  [make_irange i.toNat i.toNat IR_LOSSY] ++
                  (if i < nranges - 1 then
                     [make_irange (i.toNat + 1) (ranges.length - 1) IR_COMPLETE]
                   else [])
                else [make_irange i.toNat (ranges.length - 1) IR_COMPLETE], false)
        else none

/-! ### Partitioning metadata and the predicate-expression model -/

inductive PartType where
  | PT_HASH
  | PT_RANGE
deriving DecidableEq, Repr

export PartType (PT_HASH PT_RANGE)

/-- Partitioning metadata (`PartRelationInfo`): the scheme type, number of
children, the ordered ranges array (RANGE), the hash function handle
(HASH), the partitioning expression's type and collation. -/
structure PartRelationInfo where
  parttype : PartType
  children : Nat
  ranges : List RangeEntry
  hash_proc : Int → Nat
  ev_type : Nat
  ev_collid : Nat

/-- `PrelChildrenCount`. -/
def PrelChildrenCount (prel : PartRelationInfo) : Nat := prel.children

/-- `list_make1_irange_full`: the full partition span `[0, children-1]`
with the given tag. -/
def list_make1_irange_full (prel : PartRelationInfo) (tag : Tag) : RangeSet :=
  [make_irange 0 (prel.children - 1) tag]

/-- Modelled from the spec: `hash_to_part_index` — `hash(value) mod n`. -/
def hash_to_part_index (hash n : Nat) : Nat := hash % n

def BOOLOID : Nat := 16

/-- A `Const` node: value, null flag, type, collation. Boolean constants
carry `0` for false and a non-zero datum for true. -/
structure PConst where
  constvalue : Int
  constisnull : Bool
  consttype : Nat
  constcollid : Nat
deriving DecidableEq, Repr

/-- Modelled from the spec: `perform_type_cast`; only the trivial coercion
between identical types is represented, a genuine cross-type coercion is
out of scope and fails (the fatal `CastError`). -/
def perform_type_cast (value : Int) (srcType dstType : Nat) : Option Int :=
  if srcType = dstType then some value else none

inductive BoolOp where
  | AND_EXPR
  | OR_EXPR
  | NOT_EXPR
deriving DecidableEq, Repr

export BoolOp (AND_EXPR OR_EXPR NOT_EXPR)

/-- The non-key side of a binary operator expression: a compile-time
constant, a `Param`/`Var` (not resolvable at plan time), or anything else. -/
inductive ParamKind where
  | PKConst (c : PConst)
  | PKParamOrVar
  | PKOther
deriving DecidableEq, Repr

/-- A constant array: its element type and elements `(value, isnull)`. -/
structure ArrayConst where
  elemtype : Nat
  elems : List (Int × Bool)
deriving DecidableEq, Repr

/-- Predicate expression tree as seen by `walk_expr_tree`. Environment
lookups are carried as node attributes: `strategy` is
`get_op_opfamily_strategy` of the node's operator (0 when the operator is
not in the btree opfamily) and `keyMatch` is `match_expr_to_operand`
against the partitioning key. `arr = none` models a non-`Const` (or null)
array. -/
inductive PExpr where
  | econst (c : PConst)
  | eboolexpr (op : BoolOp) (args : List PExpr)
  | eopexpr (strategy : Nat) (keyMatch : Bool) (binaryArgs : Bool) (param : ParamKind)
  | earrexpr (strategy : Nat) (useOr : Bool) (keyMatch : Bool) (arr : Option ArrayConst)
  | eother

/-- `WrapperNode`: annotated mirror of one predicate node — original
expression (absent for synthesized nodes), child wrappers, computed
rangeset, selectivity estimate and the gap flag. -/
inductive WrapperNode where
  | mk (orig : Option PExpr) (args : List WrapperNode) (rangeset : RangeSet)
       (paramsel : ℚ) (found_gap : Bool)

def WrapperNode.orig : WrapperNode → Option PExpr
  | .mk o _ _ _ _ => o

def WrapperNode.args : WrapperNode → List WrapperNode
  | .mk _ a _ _ _ => a

def WrapperNode.rangeset : WrapperNode → RangeSet
  | .mk _ _ r _ _ => r

def WrapperNode.paramsel : WrapperNode → ℚ
  | .mk _ _ _ p _ => p

def WrapperNode.found_gap : WrapperNode → Bool
  | .mk _ _ _ _ g => g

/-- Replace the stored original expression (`result->orig = expr`). -/
def WrapperNode.withOrig (w : WrapperNode) (o : Option PExpr) : WrapperNode :=
  match w with
  | .mk _ a r p g => .mk o a r p g

/-- `WalkerContext` (plan-time: no executor expression context). -/
structure WalkerContext where
  prel : PartRelationInfo

/-- `DEFAULT_INEQ_SEL` (PostgreSQL's default inequality selectivity). -/
def DEFAULT_INEQ_SEL : ℚ := 3333333333333333 / 10000000000000000

/-- `estimate_paramsel_using_prel` (pg_pathman.c lines 112-125). -/
def estimate_paramsel_using_prel (prel : PartRelationInfo) (strategy : Nat) : ℚ :=
  if strategy = BTEqualStrategyNumber then 1 / (PrelChildrenCount prel : ℚ)
  else if prel.parttype = PT_RANGE ∧ 0 < strategy then DEFAULT_INEQ_SEL
  else 1

/-- `handle_const` (pg_pathman.c lines 787-907). `none` models the
`elog(ERROR)` paths (failed type cast). The wrapper starts zero-initialized
(`palloc0`): no original expression, no children, gap flag false. -/
def handle_const (cxt : WalkerContext) (c : PConst) (strategy : Nat) :
    Option WrapperNode :=
  let prel := cxt.prel
  if strategy = 0 then
    some (.mk none [] (list_make1_irange_full prel IR_LOSSY)
            (estimate_paramsel_using_prel prel strategy) false)
  else if c.constisnull then
    some (.mk none [] [] 0 false)
  else if c.consttype = BOOLOID then
    if c.constvalue = 0 then some (.mk none [] [] 0 false)
    else some (.mk none [] (list_make1_irange_full prel IR_LOSSY) 1 false)
  else
    match prel.parttype with
    | PT_HASH =>
      if strategy ≠ BTEqualStrategyNumber then
        some (.mk none [] (list_make1_irange_full prel IR_LOSSY)
                (estimate_paramsel_using_prel prel strategy) false)
      else
        let value? := if prel.ev_type ≠ c.consttype
                      then perform_type_cast c.constvalue c.consttype prel.ev_type
                      else some c.constvalue
        match value? with
        | none => none
        | some value =>
          let idx := hash_to_part_index (prel.hash_proc value) (PrelChildrenCount prel)
          some (.mk none [] [make_irange idx idx IR_LOSSY]
                  (estimate_paramsel_using_prel prel strategy) false)
    | PT_RANGE =>
      if strategy ≠ BTEqualStrategyNumber ∧ c.constcollid ≠ prel.ev_collid then
        some (.mk none [] (list_make1_irange_full prel IR_LOSSY)
                (estimate_paramsel_using_prel prel strategy) false)
      else
        match select_range_partitions c.constvalue prel.ranges strategy with
        | none => none
        | some (rs, g) =>
          some (.mk none [] rs (estimate_paramsel_using_prel prel strategy) g)

/-- `handle_boolexpr` (pg_pathman.c lines 910-966), combining the already
walked children `ws` (the C function interleaves walking each argument with
this same in-order fold): AND intersects starting from the full COMPLETE
span and multiplies selectivities; OR unions starting from the empty set
and then applies the length-weighted independence formula; any other boolop
(NOT) overwrites the rangeset with the full LOSSY span. The selectivity
arithmetic carries C doubles as rationals, where division by zero yields 0;
this diverges from the program on exactly one reachable corner: when the OR
union is empty, `totallen = 0` and the C at line 962 computes
`0.0 / 0.0 = NaN`, which then propagates to the node's `paramsel`. -/
def handle_boolexpr (cxt : WalkerContext) (op : BoolOp) (origArgs : List PExpr)
    (ws : List WrapperNode) : WrapperNode :=
  let prel := cxt.prel
  let init : RangeSet := if op = AND_EXPR then list_make1_irange_full prel IR_COMPLETE
                         else []
  let step : RangeSet × ℚ → WrapperNode → RangeSet × ℚ := fun acc w =>
    match op with
    | OR_EXPR => (irange_list_union acc.1 w.rangeset, acc.2)
    | AND_EXPR => (irange_list_intersection acc.1 w.rangeset, acc.2 * w.paramsel)
    | NOT_EXPR => (list_make1_irange_full prel IR_LOSSY, acc.2)
  let folded := ws.foldl step (init, 1)
  if op = OR_EXPR then
    let totallen : ℚ := (irange_list_length folded.1 : ℚ)
    let sel := 1 - ws.foldl
      (fun acc w =>
        acc * (1 - w.paramsel * (irange_list_length w.rangeset : ℚ) / totallen)) 1
    .mk (some (.eboolexpr op origArgs)) ws folded.1 sel false
  else
    .mk (some (.eboolexpr op origArgs)) ws folded.1 folded.2 false

/-- Per-element fold of `handle_arrexpr` (pg_pathman.c lines 1026-1050):
walks the array elements as synthetic `Const`s (collation `InvalidOid`),
unioning (ANY) or intersecting (ALL) their rangesets and taking the maximum
selectivity (the wrapper's selectivity starts at 0 from `palloc0`). -/
def arrexpr_fold (cxt : WalkerContext) (strategy : Nat) (useOr : Bool)
    (elemtype : Nat) : List (Int × Bool) → RangeSet → ℚ → Option (RangeSet × ℚ)
  | [], rs, sel => some (rs, sel)
  | (v, isn) :: rest, rs, sel =>
    match handle_const cxt ⟨v, isn, elemtype, 0⟩ strategy with
    | none => none
    | some sub =>
      arrexpr_fold cxt strategy useOr elemtype rest
        (if useOr then irange_list_union rs sub.rangeset
         else irange_list_intersection rs sub.rangeset)
        (max sel sub.paramsel)

/-- `handle_arrexpr` (pg_pathman.c lines 969-1066). -/
def handle_arrexpr (cxt : WalkerContext) (strategy : Nat) (useOr : Bool)
    (keyMatch : Bool) (arr : Option ArrayConst) : Option WrapperNode :=
  let prel := cxt.prel
  let orig : Option PExpr := some (.earrexpr strategy useOr keyMatch arr)
  let fallback : WrapperNode :=
    .mk orig [] (list_make1_irange_full prel IR_LOSSY)
      (estimate_paramsel_using_prel prel strategy) false
  if keyMatch then
    match arr with
    | some a =>
      let init : RangeSet := if useOr then []
                             else list_make1_irange_full prel IR_COMPLETE
      match arrexpr_fold cxt strategy useOr a.elemtype a.elems init 0 with
      | none => none
      | some (rs, sel) =>
        some (.mk orig [] rs (if a.elems.length = 0 then 0 else sel) false)
    | none => some fallback
  else some fallback

/-- `handle_opexpr` (pg_pathman.c lines 1069-1117). At plan time a `Param`
is not a constant value, so `PKConst` is the only `IsConstValue` case. -/
def handle_opexpr (cxt : WalkerContext) (strategy : Nat) (keyMatch binaryArgs : Bool)
    (param : ParamKind) : Option WrapperNode :=
  let prel := cxt.prel
  let orig : Option PExpr := some (.eopexpr strategy keyMatch binaryArgs param)
  if binaryArgs ∧ keyMatch then
    match param with
    | .PKConst c => (handle_const cxt c strategy).map (fun w => w.withOrig orig)
    | .PKParamOrVar =>
      some (.mk orig [] (list_make1_irange_full prel IR_LOSSY)
              (estimate_paramsel_using_prel prel strategy) false)
    | .PKOther =>
      some (.mk orig [] (list_make1_irange_full prel IR_LOSSY) 1 false)
  else
    some (.mk orig [] (list_make1_irange_full prel IR_LOSSY) 1 false)

mutual

/-- `walk_expr_tree` (pg_pathman.c lines 672-709). -/
def walk_expr_tree (cxt : WalkerContext) : PExpr → Option WrapperNode
  | .econst c => handle_const cxt c BTEqualStrategyNumber
  | .eboolexpr op args =>
      (walk_args cxt args).map (handle_boolexpr cxt op args)
  | .eopexpr strategy keyMatch binaryArgs param =>
      handle_opexpr cxt strategy keyMatch binaryArgs param
  | .earrexpr strategy useOr keyMatch arr =>
      handle_arrexpr cxt strategy useOr keyMatch arr
  | .eother =>
      some (.mk (some .eother) [] (list_make1_irange_full cxt.prel IR_LOSSY) 1 false)
termination_by structural e => e

/-- Walks a list of boolean-operator arguments in order. -/
def walk_args (cxt : WalkerContext) : List PExpr → Option (List WrapperNode)
  | [] => some []
  | e :: es => do
      let w ← walk_expr_tree cxt e
      let ws ← walk_args cxt es
      pure (w :: ws)
termination_by structural es => es

end

/-! ### Residual-expression rebuilder (`wrapper_make_expression`) -/

mutual

/-- `wrapper_make_expression` (pg_pathman.c lines 712-783). Returns the C
function's pair (returned `Node *`, `*alwaysTrue`): `(none, false)` is the
NULL result for an index absent from the rangeset, `(none, true)` the NULL
result with `alwaysTrue` set for a COMPLETE hit. The outer `none` models the
undefined `linitial(NIL)` (the `Assert(list_length(args) >= 1)` failing)
when every child of a lossy AND/OR collapses to NULL. -/
def wrapper_make_expression (wrap : WrapperNode) (index : Nat) :
    Option (Option PExpr × Bool) :=
  let fl := irange_list_find wrap.rangeset index
  if ¬ fl.1 then some (none, false)
  else if ¬ fl.2 then some (none, true)
  else
    match wrap with
    | .mk orig args _ _ _ =>
      match orig with
      | some (.eboolexpr op origArgs) =>
        if op = OR_EXPR ∨ op = AND_EXPR then
          match wme_args args index with
          | none => none
          | some rebuilt =>
            match rebuilt with
            | [] => none
            | [a] => some (some a, false)
            | _ => some (some (.eboolexpr op rebuilt), false)
        else some (some (.eboolexpr op origArgs), false)
      | _ => some (orig, false)

/-- The `foreach` over a boolean wrapper's children: rebuild each child for
the same index and keep the non-NULL resulting expressions, in order. -/
def wme_args (ws : List WrapperNode) (index : Nat) : Option (List PExpr) :=
  match ws with
  | [] => some []
  | w :: rest => do
      let r ← wrapper_make_expression w index
      let rs ← wme_args rest index
      match r.1 with
      | some e => pure (e :: rs)
      | none => pure rs

end

/-- The rebuilder's outcome for one partition, as the spec describes it. -/
inductive RebuildOutcome where
  | Exclude
  | NoFilter
  | Filter (e : PExpr)

/-- `rebuild(node, partitionIndex)`: reading of `wrapper_make_expression`'s
result pair — NULL without `alwaysTrue` is Exclude, NULL with `alwaysTrue`
is NoFilter, a non-NULL node is the residual filter. -/
def rebuild (wrap : WrapperNode) (index : Nat) : Option RebuildOutcome :=
  (wrapper_make_expression wrap index).map (fun r =>
    match r with
    | (none, false) => .Exclude
    | (none, true) => .NoFilter
    | (some e, _) => .Filter e)

/-! ### Predicates used to state the claims -/

/-- `bLE a b`: the comparator says `a ≤ b`. -/
def bLE (a b : Bound) : Prop := cmp_bounds a b ≤ 0

/-- `bLT a b`: the comparator says `a < b`. -/
def bLT (a b : Bound) : Prop := cmp_bounds a b < 0

instance (a b : Bound) : Decidable (bLE a b) := by unfold bLE; infer_instance

instance (a b : Bound) : Decidable (bLT a b) := by unfold bLT; infer_instance

/-- Key `k` satisfies the predicate `k OP value` for a btree strategy. -/
def opSatisfies (strategy : Nat) (k value : Int) : Prop :=
  (strategy = BTLessStrategyNumber ∧ k < value) ∨
  (strategy = BTLessEqualStrategyNumber ∧ k ≤ value) ∨
  (strategy = BTEqualStrategyNumber ∧ k = value) ∨
  (strategy = BTGreaterEqualStrategyNumber ∧ value ≤ k) ∨
  (strategy = BTGreaterStrategyNumber ∧ value < k)

instance (s : Nat) (k v : Int) : Decidable (opSatisfies s k v) := by
  unfold opSatisfies; infer_instance

/-- The min bound of partition `p`. -/
def minOf (ranges : List RangeEntry) (p : Nat) : Bound := (ranges.getD p dummyRE).min

/-- The max bound of partition `p`. -/
def maxOf (ranges : List RangeEntry) (p : Nat) : Bound := (ranges.getD p dummyRE).max

/-- Partition `p`'s half-open span `[min, max)` contains key `k`. -/
def spanContains (ranges : List RangeEntry) (p : Nat) (k : Int) : Prop :=
  bLE (minOf ranges p) (.fin k) ∧ bLT (.fin k) (maxOf ranges p)

/-- The binary search classifies the value as lying left of span `j`. -/
def isLess (ranges : List RangeEntry) (strategy : Nat) (v : Int) (j : Nat) : Prop :=
  cmp_bounds (.fin v) (minOf ranges j) < 0 ∨
  (cmp_bounds (.fin v) (minOf ranges j) = 0 ∧ strategy = BTLessStrategyNumber)

/-- The binary search classifies the value as lying right of span `j`. -/
def isGreater (ranges : List RangeEntry) (strategy : Nat) (v : Int) (j : Nat) : Prop :=
  0 < cmp_bounds (.fin v) (maxOf ranges j) ∨
  (0 ≤ cmp_bounds (.fin v) (maxOf ranges j) ∧ strategy ≠ BTLessStrategyNumber)

/-- The binary search accepts span `j` for the value. -/
def isMatch (ranges : List RangeEntry) (strategy : Nat) (v : Int) (j : Nat) : Prop :=
  ¬ isLess ranges strategy v j ∧ ¬ isGreater ranges strategy v j

instance (ranges : List RangeEntry) (p : Nat) (k : Int) :
    Decidable (spanContains ranges p k) := by unfold spanContains; infer_instance

/-- Partition index `p` belongs to the rangeset. -/
def rsContains (rs : RangeSet) (p : Nat) : Prop := (irange_list_find rs p).1 = true

instance (rs : RangeSet) (p : Nat) : Decidable (rsContains rs p) := by
  unfold rsContains; infer_instance

/-- The ranges array is valid per the data model: each entry has
`min ≤ max` and consecutive entries do not overlap (`max_j ≤ min_{j+1}`). -/
def RangesWellOrdered (ranges : List RangeEntry) : Prop :=
  (∀ j, j < ranges.length → bLE (minOf ranges j) (maxOf ranges j)) ∧
  (∀ j, j + 1 < ranges.length → bLE (maxOf ranges j) (minOf ranges (j + 1)))

instance (ranges : List RangeEntry) : Decidable (RangesWellOrdered ranges) :=
  decidable_of_iff
    ((∀ j, j < ranges.length → bLE (minOf ranges j) (maxOf ranges j)) ∧
     (∀ j, j < ranges.length - 1 → bLE (maxOf ranges j) (minOf ranges (j + 1))))
    (by
      unfold RangesWellOrdered
      constructor <;> rintro ⟨h1, h2⟩ <;> exact ⟨h1, fun j hj => h2 j (by omega)⟩)

/-- No gaps: each entry's max equals the next entry's min. -/
def RangesContiguous (ranges : List RangeEntry) : Prop :=
  ∀ j, j + 1 < ranges.length →
    cmp_bounds (maxOf ranges j) (minOf ranges (j + 1)) = 0

instance (ranges : List RangeEntry) : Decidable (RangesContiguous ranges) :=
  decidable_of_iff
    (∀ j, j < ranges.length - 1 →
       cmp_bounds (maxOf ranges j) (minOf ranges (j + 1)) = 0)
    (by
      unfold RangesContiguous
      constructor <;> intro h j hj <;> exact h j (by omega))

/-- Every partition's span is nonempty (`min < max`). -/
def RangesNonempty (ranges : List RangeEntry) : Prop :=
  ∀ j, j < ranges.length → bLT (minOf ranges j) (maxOf ranges j)

instance (ranges : List RangeEntry) : Decidable (RangesNonempty ranges) := by
  unfold RangesNonempty; infer_instance

/-- No partition's span contains key `v` (`v` lies in a gap). -/
def InGap (ranges : List RangeEntry) (v : Int) : Prop :=
  ∀ p, p < ranges.length → ¬ spanContains ranges p v

instance (ranges : List RangeEntry) (v : Int) : Decidable (InGap ranges v) := by
  unfold InGap; infer_instance

mutual

/-- A wrapper node together with every node of its recursively built
argument tree. -/
def allNodes : WrapperNode → List WrapperNode
  | .mk o args rs p g => .mk o args rs p g :: allNodesList args

def allNodesList : List WrapperNode → List WrapperNode
  | [] => []
  | w :: ws => allNodes w ++ allNodesList ws

end

mutual

/-- Size measure on predicate expressions, for strong induction. -/
def pexprSize : PExpr → Nat
  | .econst _ => 1
  | .eboolexpr _ args => 1 + pexprListSize args
  | .eopexpr _ _ _ _ => 1
  | .earrexpr _ _ _ _ => 1
  | .eother => 1
termination_by structural e => e

def pexprListSize : List PExpr → Nat
  | [] => 0
  | e :: es => pexprSize e + pexprListSize es
termination_by structural es => es

end

/-! ### Concrete fixtures used by witnesses and counterexamples -/

/-- A RANGE scheme with three partitions `[0,10) [10,20) [20,30)`. -/
def prelRange3 : PartRelationInfo :=
  ⟨PT_RANGE, 3, [⟨.fin 0, .fin 10⟩, ⟨.fin 10, .fin 20⟩, ⟨.fin 20, .fin 30⟩],
   fun _ => 0, 23, 100⟩

def cxtRange3 : WalkerContext := ⟨prelRange3⟩

/-- A HASH scheme with four partitions whose hash is the absolute value. -/
def prelHash4 : PartRelationInfo := ⟨PT_HASH, 4, [], fun v => v.natAbs, 23, 100⟩

def cxtHash4 : WalkerContext := ⟨prelHash4⟩

/-- Two RANGE partitions `[0,10)` and `[20,30)` with a gap between them. -/
def gapRanges : List RangeEntry := [⟨.fin 0, .fin 10⟩, ⟨.fin 20, .fin 30⟩]

/-- Two touching RANGE partitions `[0,5)` and `[5,5)`, the second empty. -/
def emptySpanRanges : List RangeEntry := [⟨.fin 0, .fin 5⟩, ⟨.fin 5, .fin 5⟩]

/-- The comparison `key = v` over the 3-partition RANGE fixture's key. -/
def keyEq (v : Int) : PExpr :=
  .eopexpr BTEqualStrategyNumber true true (.PKConst ⟨v, false, 23, 100⟩)

/-- The comparison `key ≥ v` over the 3-partition RANGE fixture's key. -/
def keyGe (v : Int) : PExpr :=
  .eopexpr BTGreaterEqualStrategyNumber true true (.PKConst ⟨v, false, 23, 100⟩)

/-- The wrapper that walking `keyEq 100` (outside the envelope) produces. -/
def wrapExcluded : WrapperNode := .mk (some (keyEq 100)) [] [] (1/3) false

/-- The wrapper that walking `keyEq 5` produces. -/
def wrapLossy5 : WrapperNode :=
  .mk (some (keyEq 5)) [] [make_irange 0 0 IR_LOSSY] (1/3) false

/-- The wrapper that walking `keyEq 100 OR keyEq 5` produces: partition 0
is LOSSY in the union while the first child's rangeset is empty. -/
def wrapOrMixed : WrapperNode :=
  .mk (some (.eboolexpr OR_EXPR [keyEq 100, keyEq 5])) [wrapExcluded, wrapLossy5]
    [make_irange 0 0 IR_LOSSY] (1/3) false

/-! ### Order facts about the comparator -/

theorem cmp_bounds_flip (a b : Bound) : cmp_bounds a b = - cmp_bounds b a := by
  cases a <;> cases b <;>
    simp only [cmp_bounds, cmpInt] <;>
    first
      | (split_ifs <;> omega)
      | omega

theorem bLE_trans {a b c : Bound} (h1 : bLE a b) (h2 : bLE b c) : bLE a c := by
  cases a <;> cases b <;> cases c <;>
    simp only [bLE, cmp_bounds, cmpInt] at * <;>
    first
      | trivial
      | omega
      | (split_ifs at * <;> omega)

theorem bLT_of_bLE_of_bLT {a b c : Bound} (h1 : bLE a b) (h2 : bLT b c) : bLT a c := by
  cases a <;> cases b <;> cases c <;>
    simp only [bLE, bLT, cmp_bounds, cmpInt] at * <;>
    first
      | trivial
      | omega
      | (split_ifs at * <;> omega)

theorem bLT_of_bLT_of_bLE {a b c : Bound} (h1 : bLT a b) (h2 : bLE b c) : bLT a c := by
  cases a <;> cases b <;> cases c <;>
    simp only [bLE, bLT, cmp_bounds, cmpInt] at * <;>
    first
      | trivial
      | omega
      | (split_ifs at * <;> omega)

theorem bLE_of_bLT {a b : Bound} (h : bLT a b) : bLE a b := by
  unfold bLE bLT at *; omega

theorem cmp_nonneg_iff {a b : Bound} : 0 ≤ cmp_bounds a b ↔ bLE b a := by
  unfold bLE; rw [cmp_bounds_flip a b]; omega

theorem cmp_pos_iff {a b : Bound} : 0 < cmp_bounds a b ↔ bLT b a := by
  unfold bLT; rw [cmp_bounds_flip a b]; omega

theorem cmp_eq_zero_bLE {a b : Bound} (h : cmp_bounds a b = 0) : bLE a b ∧ bLE b a := by
  constructor
  · unfold bLE; omega
  · unfold bLE; rw [cmp_bounds_flip b a]; omega

theorem not_bLE_iff {a b : Bound} : ¬ bLE a b ↔ bLT b a := by
  unfold bLE bLT
  rw [cmp_bounds_flip b a]
  omega

theorem bLT_fin_iff {a b : Int} : bLT (.fin a) (.fin b) ↔ a < b := by
  simp only [bLT, cmp_bounds, cmpInt]
  split_ifs <;> omega

theorem bLE_fin_iff {a b : Int} : bLE (.fin a) (.fin b) ↔ a ≤ b := by
  simp only [bLE, cmp_bounds, cmpInt]
  split_ifs <;> omega

theorem cmp_fin_eq_zero_iff {a b : Int} : cmp_bounds (.fin a) (.fin b) = 0 ↔ a = b := by
  simp only [cmp_bounds, cmpInt]
  split_ifs with h1 h2
  · constructor
    · intro h
      exact absurd h (by decide)
    · intro h
      omega
  · simp [h2]
  · constructor
    · intro h
      exact absurd h (by decide)
    · intro h
      omega

/-! ### Characterizations of `select_range_partitions` per strategy -/

theorem select_lt_char (value : Int) (ranges : List RangeEntry) :
    select_range_partitions value ranges BTLessStrategyNumber =
      if ranges = [] then some ([], false)
      else if cmp_bounds (.fin value) (minOf ranges 0) ≤ 0 then some ([], false)
      else if 0 ≤ cmp_bounds (.fin value) (maxOf ranges (ranges.length - 1)) then
        some ([make_irange 0 (ranges.length - 1) IR_COMPLETE], false)
      else
        match binary_search_ranges ranges BTLessStrategyNumber (.fin value) 0
            ((ranges.length : Int) - 1) with
        | .gap => some ([], true)
        | .found i lossy =>
          some (if lossy then
                  (if 0 < i then [make_irange 0 (i.toNat - 1) IR_COMPLETE] else []) ++
                  [make_irange i.toNat i.toNat IR_LOSSY]
                else [make_irange 0 i.toNat IR_COMPLETE], false) := by
  norm_num [select_range_partitions, minOf, maxOf]

theorem select_le_char (value : Int) (ranges : List RangeEntry) :
    select_range_partitions value ranges BTLessEqualStrategyNumber =
      if ranges = [] then some ([], false)
      else if cmp_bounds (.fin value) (minOf ranges 0) < 0 then some ([], false)
      else if 0 ≤ cmp_bounds (.fin value) (maxOf ranges (ranges.length - 1)) then
        some ([make_irange 0 (ranges.length - 1) IR_COMPLETE], false)
      else
        match binary_search_ranges ranges BTLessEqualStrategyNumber (.fin value) 0
            ((ranges.length : Int) - 1) with
        | .gap => some ([], true)
        | .found i lossy =>
          some (if lossy then
                  (if 0 < i then [make_irange 0 (i.toNat - 1) IR_COMPLETE] else []) ++
                  [make_irange i.toNat i.toNat IR_LOSSY]
                else [make_irange 0 i.toNat IR_COMPLETE], false) := by
  norm_num [select_range_partitions, minOf, maxOf]

theorem select_eq_char (value : Int) (ranges : List RangeEntry) :
    select_range_partitions value ranges BTEqualStrategyNumber =
      if ranges = [] then some ([], false)
      else if cmp_bounds (.fin value) (minOf ranges 0) < 0 then some ([], false)
      else if 0 ≤ cmp_bounds (.fin value) (maxOf ranges (ranges.length - 1)) then
        some ([], false)
      else
        match binary_search_ranges ranges BTEqualStrategyNumber (.fin value) 0
            ((ranges.length : Int) - 1) with
        | .gap => some ([], true)
        | .found i _ => some ([make_irange i.toNat i.toNat IR_LOSSY], false) := by
  norm_num [select_range_partitions, minOf, maxOf]

theorem select_ge_char (value : Int) (ranges : List RangeEntry) :
    select_range_partitions value ranges BTGreaterEqualStrategyNumber =
      if ranges = [] then some ([], false)
      else if 0 ≤ cmp_bounds (.fin value) (maxOf ranges (ranges.length - 1)) then
        some ([], false)
      else if cmp_bounds (.fin value) (minOf ranges 0) ≤ 0 then
        some ([make_irange 0 (ranges.length - 1) IR_COMPLETE], false)
      else
        match binary_search_ranges ranges BTGreaterEqualStrategyNumber (.fin value) 0
            ((ranges.length : Int) - 1) with
        | .gap => some ([], true)
        | .found i lossy =>
          some (if lossy then
                  [make_irange i.toNat i.toNat IR_LOSSY] ++
                  (if i < (ranges.length : Int) - 1 then
                     [make_irange (i.toNat + 1) (ranges.length - 1) IR_COMPLETE]
                   else [])
                else [make_irange i.toNat (ranges.length - 1) IR_COMPLETE], false) := by
  norm_num [select_range_partitions, minOf, maxOf]

theorem select_gt_char (value : Int) (ranges : List RangeEntry) :
    select_range_partitions value ranges BTGreaterStrategyNumber =
      if ranges = [] then some ([], false)
      else if 0 ≤ cmp_bounds (.fin value) (maxOf ranges (ranges.length - 1)) then
        some ([], false)
      else if cmp_bounds (.fin value) (minOf ranges 0) < 0 then
        some ([make_irange 0 (ranges.length - 1) IR_COMPLETE], false)
      else
        match binary_search_ranges ranges BTGreaterStrategyNumber (.fin value) 0
            ((ranges.length : Int) - 1) with
        | .gap => some ([], true)
        | .found i lossy =>
          some (if lossy then
                  [make_irange i.toNat i.toNat IR_LOSSY] ++
                  (if i < (ranges.length : Int) - 1 then
                     [make_irange (i.toNat + 1) (ranges.length - 1) IR_COMPLETE]
                   else [])
                else [make_irange i.toNat (ranges.length - 1) IR_COMPLETE], false) := by
  norm_num [select_range_partitions, minOf, maxOf]

/-! ### C10: equality pruning yields at most one LOSSY singleton -/

/-- C10: for every RANGE scheme and the equality operator, the rangeset
produced by `select_range_partitions` is either empty or exactly one
singleton range `[i, i]` tagged LOSSY (never COMPLETE), so an equality
match always mandates the residual re-check on its partition. -/
theorem equality_rangeset_empty_or_lossy_singleton
    (value : Int) (ranges : List RangeEntry) :
    ∃ rs g, select_range_partitions value ranges BTEqualStrategyNumber = some (rs, g) ∧
      (rs = [] ∨ ∃ i, rs = [make_irange i i IR_LOSSY]) := by
  rw [select_eq_char]
  split_ifs with h0 h1 h2
  · exact ⟨[], false, rfl, Or.inl rfl⟩
  · exact ⟨[], false, rfl, Or.inl rfl⟩
  · exact ⟨[], false, rfl, Or.inl rfl⟩
  · cases hbs : binary_search_ranges ranges BTEqualStrategyNumber (.fin value) 0
        ((ranges.length : Int) - 1) with
    | found i lossy =>
      exact ⟨[make_irange i.toNat i.toNat IR_LOSSY], false, rfl,
             Or.inr ⟨i.toNat, rfl⟩⟩
    | gap =>
      exact ⟨[], true, rfl, Or.inl rfl⟩

/-! ### C2: HASH equality pruning -/

/-- C2: for every HASH scheme with `n ≥ 1` partitions and a constant
equality test on a non-null, non-boolean, key-typed constant, the resulting
rangeset is exactly the singleton `[idx, idx]` tagged LOSSY where
`idx = hash(value) mod n`. -/
theorem hash_equality_lossy_singleton (cxt : WalkerContext) (c : PConst)
    (hH : cxt.prel.parttype = PT_HASH)
    (hn : 1 ≤ cxt.prel.children)
    (hnull : c.constisnull = false)
    (hbool : c.consttype ≠ BOOLOID)
    (htype : c.consttype = cxt.prel.ev_type) :
    ∃ w, handle_const cxt c BTEqualStrategyNumber = some w ∧
      w.rangeset =
        [make_irange (cxt.prel.hash_proc c.constvalue % cxt.prel.children)
                     (cxt.prel.hash_proc c.constvalue % cxt.prel.children) IR_LOSSY] := by
  have hbool2 : cxt.prel.ev_type ≠ BOOLOID := htype ▸ hbool
  unfold handle_const
  norm_num [hnull, hH, hbool, htype, hbool2, hash_to_part_index, PrelChildrenCount]
  rfl

/-- Witness for C2 at a concrete HASH scheme and constant. -/
theorem hash_equality_lossy_singleton_witness :
    ∃ w, handle_const cxtHash4 ⟨7, false, 23, 100⟩ BTEqualStrategyNumber = some w ∧
      w.rangeset = [make_irange 3 3 IR_LOSSY] :=
  hash_equality_lossy_singleton cxtHash4 ⟨7, false, 23, 100⟩
    rfl (by decide) rfl (by decide) rfl

/-! ### C3: walking a constant leaf (corrected) -/

/-- Counterexample to C3 as stated: walking the boolean constant `true`
over a 3-partition scheme yields the full span tagged LOSSY, not COMPLETE
as the claim demands. -/
theorem const_true_not_complete_counterexample :
    (walk_expr_tree cxtRange3 (.econst ⟨1, false, BOOLOID, 0⟩)).map WrapperNode.rangeset
      = some [make_irange 0 2 IR_LOSSY] ∧
    (walk_expr_tree cxtRange3 (.econst ⟨1, false, BOOLOID, 0⟩)).map WrapperNode.rangeset
      ≠ some [make_irange 0 2 IR_COMPLETE] := by
  constructor
  · with_unfolding_all rfl
  · intro h
    rw [show (walk_expr_tree cxtRange3 (.econst ⟨1, false, BOOLOID, 0⟩)).map
          WrapperNode.rangeset = some [make_irange 0 2 IR_LOSSY] from by
        with_unfolding_all rfl] at h
    simp [make_irange] at h

/-- C3 (amended): for every partitioning scheme, walking a constant leaf
yields: if the constant is NULL or boolean false, the empty rangeset with
`paramsel = 0`; if it is boolean true, the full partition span tagged
LOSSY (not COMPLETE) with `paramsel = 1`. -/
theorem const_leaf_walk (cxt : WalkerContext) (c : PConst) :
    (c.constisnull = true →
       walk_expr_tree cxt (.econst c) = some (.mk none [] [] 0 false)) ∧
    (c.constisnull = false → c.consttype = BOOLOID → c.constvalue = 0 →
       walk_expr_tree cxt (.econst c) = some (.mk none [] [] 0 false)) ∧
    (c.constisnull = false → c.consttype = BOOLOID → c.constvalue ≠ 0 →
       walk_expr_tree cxt (.econst c) =
         some (.mk none [] (list_make1_irange_full cxt.prel IR_LOSSY) 1 false)) := by
  refine ⟨fun hnull => ?_, fun hnull hb hv => ?_, fun hnull hb hv => ?_⟩
  · show handle_const cxt c BTEqualStrategyNumber = _
    unfold handle_const
    norm_num [hnull]
  · show handle_const cxt c BTEqualStrategyNumber = _
    unfold handle_const
    norm_num [hnull, hb, hv]
  · show handle_const cxt c BTEqualStrategyNumber = _
    unfold handle_const
    norm_num [hnull, hb, hv]

/-- Witness for C3 (amended) at concrete constants: NULL, false and true. -/
theorem const_leaf_walk_witness :
    walk_expr_tree cxtRange3 (.econst ⟨0, true, 23, 0⟩) = some (.mk none [] [] 0 false) ∧
    walk_expr_tree cxtRange3 (.econst ⟨0, false, BOOLOID, 0⟩)
      = some (.mk none [] [] 0 false) ∧
    walk_expr_tree cxtRange3 (.econst ⟨1, false, BOOLOID, 0⟩)
      = some (.mk none [] (list_make1_irange_full prelRange3 IR_LOSSY) 1 false) :=
  ⟨(const_leaf_walk cxtRange3 ⟨0, true, 23, 0⟩).1 rfl,
   (const_leaf_walk cxtRange3 ⟨0, false, BOOLOID, 0⟩).2.1 rfl rfl rfl,
   (const_leaf_walk cxtRange3 ⟨1, false, BOOLOID, 0⟩).2.2 rfl rfl (by decide)⟩

/-! ### C7: the residual-expression rebuilder (corrected) -/

/-- The rebuilder's `foreach` over children agrees with rebuilding every
child and keeping, in order, the expressions of the children whose outcome
is a residual filter (both `NoFilter` and `Exclude` children yield NULL and
are dropped). -/
theorem wme_args_eq_mapM (ws : List WrapperNode) (index : Nat)
    (outs : List RebuildOutcome)
    (h : ws.mapM (fun w => rebuild w index) = some outs) :
    wme_args ws index =
      some (outs.filterMap (fun o =>
        match o with
        | .Filter e => some e
        | _ => none)) := by
  induction ws generalizing outs with
  | nil =>
    simp only [List.mapM_nil, pure, Option.some.injEq] at h
    subst h
    rfl
  | cons w rest ih =>
    rw [List.mapM_cons] at h
    rcases hw : rebuild w index with _ | o
    · rw [hw] at h
      exact absurd h (by simp)
    · rw [hw] at h
      rcases hrest : rest.mapM (fun w => rebuild w index) with _ | os
      · rw [hrest] at h
        exact absurd h (by simp)
      · rw [hrest] at h
        have h2 : o :: os = outs := by simpa using h
        subst h2
        rcases hwme : wrapper_make_expression w index with _ | ⟨e?, at?⟩
        · rw [rebuild, hwme] at hw
          exact absurd hw (by simp)
        · rw [rebuild, hwme] at hw
          show (do
            let r ← wrapper_make_expression w index
            let rs ← wme_args rest index
            match r.1 with
            | some e => pure (e :: rs)
            | none => pure rs) = _
          rw [hwme, ih os hrest]
          rcases e? with _ | e
          · rcases at? with _ | _
            · have ho : o = RebuildOutcome.Exclude := by simpa using hw.symm
              subst ho
              simp
            · have ho : o = RebuildOutcome.NoFilter := by simpa using hw.symm
              subst ho
              simp
          · have ho : o = RebuildOutcome.Filter e := by simpa using hw.symm
            subst ho
            simp

/-- C7 (amended): for every WrapperNode and partition index: an index
absent from the rangeset rebuilds to Exclude; present with tag COMPLETE,
to NoFilter; present with tag LOSSY with an AND/OR boolean original
expression, every child is rebuilt for the same index, children yielding
NoFilter or Exclude are dropped, the sole surviving child's expression is
returned when exactly one survives, a boolean node of the same operator
over the surviving expressions otherwise, and the result is undefined
(defensive assertion) when no child survives; for any other original node
kind the original expression is returned as the residual filter. -/
theorem rebuild_cases (wrap : WrapperNode) (index : Nat) :
    (¬ rsContains wrap.rangeset index → rebuild wrap index = some .Exclude) ∧
    (rsContains wrap.rangeset index →
     (irange_list_find wrap.rangeset index).2 = false →
       rebuild wrap index = some .NoFilter) ∧
    (rsContains wrap.rangeset index →
     (irange_list_find wrap.rangeset index).2 = true →
     ∀ op origArgs, wrap.orig = some (.eboolexpr op origArgs) →
       (op = OR_EXPR ∨ op = AND_EXPR) →
       ∀ outs, wrap.args.mapM (fun w => rebuild w index) = some outs →
         rebuild wrap index =
           (match outs.filterMap (fun o =>
              match o with
              | RebuildOutcome.Filter e => some e
              | _ => none) with
            | [] => none
            | [e] => some (.Filter e)
            | es => some (.Filter (.eboolexpr op es)))) ∧
    (rsContains wrap.rangeset index →
     (irange_list_find wrap.rangeset index).2 = true →
     ∀ e, wrap.orig = some e →
       (match e with
        | .eboolexpr op _ => ¬ (op = OR_EXPR ∨ op = AND_EXPR)
        | _ => True) →
       rebuild wrap index = some (.Filter e)) := by
  rcases wrap with ⟨orig, args, rs, p, g⟩
  simp only [rsContains, WrapperNode.rangeset, WrapperNode.orig, WrapperNode.args]
  refine ⟨fun hnc => ?_, fun hc hlossy => ?_, fun hc hlossy op origArgs horig hop outs houts => ?_,
          fun hc hlossy e horig hnb => ?_⟩
  · have hfind : (irange_list_find rs index).1 = false := by
      rcases h : (irange_list_find rs index).1
      · rfl
      · exact absurd h hnc
    rw [rebuild, wrapper_make_expression.eq_def]
    simp [WrapperNode.rangeset, hfind]
  · rw [rebuild, wrapper_make_expression.eq_def]
    simp [WrapperNode.rangeset, hc, hlossy]
  · subst horig
    rw [rebuild, wrapper_make_expression.eq_def]
    simp only [WrapperNode.rangeset, WrapperNode.args, hc, hlossy, eq_self_iff_true,
               not_true, if_false, if_pos hop]
    rw [wme_args_eq_mapM args index outs houts]
    generalize outs.filterMap (fun o =>
        match o with
        | RebuildOutcome.Filter e => some e
        | _ => none) = survivors
    rcases survivors with _ | ⟨e1, rest1⟩
    · rfl
    · rcases rest1 with _ | ⟨e2, rest2⟩ <;> rfl
  · subst horig
    rw [rebuild, wrapper_make_expression.eq_def]
    simp only [WrapperNode.rangeset, WrapperNode.args, hc, hlossy, eq_self_iff_true,
               not_true, if_false]
    rcases e with c | ⟨op, origArgs⟩ | ⟨s1, k1, b1, p1⟩ | ⟨s2, u2, k2, a2⟩ | _
    · with_unfolding_all rfl
    · simp only at hnb
      simp [hnb]
    · with_unfolding_all rfl
    · with_unfolding_all rfl
    · with_unfolding_all rfl

/-- Witness for C7 (amended), applying it to a lossy OR wrapper with one
excluded child and one lossy child: the rebuilt filter collapses to the
surviving comparison. -/
theorem rebuild_cases_witness :
    rebuild wrapOrMixed 0 = some (.Filter (keyEq 5)) :=
  (rebuild_cases wrapOrMixed 0).2.2.1 (by decide) (by decide)
    OR_EXPR [keyEq 100, keyEq 5] rfl (Or.inl rfl)
    [.Exclude, .Filter (keyEq 5)] (by with_unfolding_all rfl)

/-- Counterexample to C7 as stated: in a lossy OR wrapper whose first child
rebuilds to Exclude (not NoFilter) and whose second child rebuilds to a
residual comparison, the claim, which drops only NoFilter children, leaves
two surviving children and demands a new boolean node of the same operator;
the code instead drops the Exclude child as well and returns the sole
remaining comparison expression, which is not a boolean node. -/
theorem rebuild_collapse_counterexample :
    rebuild wrapExcluded 0 = some .Exclude ∧
    rebuild wrapLossy5 0 = some (.Filter (keyEq 5)) ∧
    rebuild wrapOrMixed 0 = some (.Filter (keyEq 5)) ∧
    (match rebuild wrapOrMixed 0 with
     | some (.Filter (.eboolexpr _ _)) => False
     | _ => True) := by
  refine ⟨?_, ?_, ?_, ?_⟩
  · with_unfolding_all rfl
  · with_unfolding_all rfl
  · with_unfolding_all rfl
  · with_unfolding_all exact trivial

/-! ### C6: boolean AND/OR combination -/

theorem foldl_pair_split {W A B : Type} (f : A → W → A) (g : B → W → B) :
    ∀ (ws : List W) (a : A) (b : B),
      ws.foldl (fun p w => (f p.1 w, g p.2 w)) (a, b) = (ws.foldl f a, ws.foldl g b)
  | [], _, _ => rfl
  | w :: ws, a, b => foldl_pair_split f g ws (f a w) (g b w)

theorem foldl_mul_eq_prod (l : List ℚ) (a : ℚ) : l.foldl (· * ·) a = a * l.prod := by
  induction l generalizing a with
  | nil => simp
  | cons x xs ih =>
    simp only [List.foldl_cons, List.prod_cons, ih]
    ring

/-- C6: for every AND expression the result rangeset is the intersection of
all children's rangesets seeded with the full COMPLETE span and `paramsel`
is the product of the children's; for every OR expression the rangeset is
the union of all children's rangesets and
`paramsel = 1 − Π_k (1 − childSel_k · childLen_k / totalLen)` where
`childLen_k` is the covered length of child k's rangeset and `totalLen` the
covered length of the union. -/
theorem boolexpr_combination (cxt : WalkerContext) (op : BoolOp) (args : List PExpr)
    (ws : List WrapperNode) (hw : walk_args cxt args = some ws) :
    ∃ w, walk_expr_tree cxt (.eboolexpr op args) = some w ∧
      (op = AND_EXPR →
        w.rangeset = ws.foldl (fun acc x => irange_list_intersection acc x.rangeset)
          (list_make1_irange_full cxt.prel IR_COMPLETE) ∧
        w.paramsel = (ws.map WrapperNode.paramsel).prod) ∧
      (op = OR_EXPR →
        w.rangeset = ws.foldl (fun acc x => irange_list_union acc x.rangeset) [] ∧
        w.paramsel = 1 - (ws.map (fun x => 1 - x.paramsel *
          (irange_list_length x.rangeset : ℚ) /
          (irange_list_length w.rangeset : ℚ))).prod) := by
  refine ⟨handle_boolexpr cxt op args ws, ?_, fun hop => ?_, fun hop => ?_⟩
  · show (walk_args cxt args).map (handle_boolexpr cxt op args) = _
    rw [hw]
    rfl
  · subst hop
    unfold handle_boolexpr
    simp only [reduceCtorEq, if_false, if_pos rfl]
    rw [foldl_pair_split (fun acc (x : WrapperNode) => irange_list_intersection acc x.rangeset)
          (fun acc (x : WrapperNode) => acc * x.paramsel) ws _ 1]
    constructor
    · rfl
    · show (ws.foldl (fun acc x => acc * x.paramsel) 1 : ℚ) = _
      rw [← List.foldl_map (f := WrapperNode.paramsel) (g := (· * ·)),
          foldl_mul_eq_prod]
      ring
  · subst hop
    unfold handle_boolexpr
    simp only [reduceCtorEq, if_false, if_pos rfl]
    rw [foldl_pair_split (fun acc (x : WrapperNode) => irange_list_union acc x.rangeset)
          (fun acc (_ : WrapperNode) => acc) ws _ 1]
    constructor
    · rfl
    · show 1 - (ws.foldl (fun acc x => acc *
          (1 - x.paramsel * (irange_list_length x.rangeset : ℚ) / _)) 1 : ℚ) = _
      rw [← List.foldl_map
            (f := fun (x : WrapperNode) => 1 - x.paramsel *
              (irange_list_length x.rangeset : ℚ) /
              (irange_list_length ((ws.foldl (fun acc x => irange_list_union acc x.rangeset) [])) : ℚ))
            (g := (· * ·)),
          foldl_mul_eq_prod]
      simp only [if_true, WrapperNode.rangeset]
      ring

/-- Witness for C6 at a concrete AND of one comparison. -/
theorem boolexpr_combination_witness :
    ∃ w, walk_expr_tree cxtRange3 (.eboolexpr AND_EXPR [keyEq 15]) = some w ∧
      (AND_EXPR = AND_EXPR →
        w.rangeset = [WrapperNode.mk (some (keyEq 15)) [] [make_irange 1 1 IR_LOSSY]
            (1/3) false].foldl (fun acc x => irange_list_intersection acc x.rangeset)
          (list_make1_irange_full cxtRange3.prel IR_COMPLETE) ∧
        w.paramsel = ([WrapperNode.mk (some (keyEq 15)) [] [make_irange 1 1 IR_LOSSY]
            (1/3) false].map WrapperNode.paramsel).prod) ∧
      (AND_EXPR = OR_EXPR →
        w.rangeset = [WrapperNode.mk (some (keyEq 15)) [] [make_irange 1 1 IR_LOSSY]
            (1/3) false].foldl (fun acc x => irange_list_union acc x.rangeset) [] ∧
        w.paramsel = 1 - ([WrapperNode.mk (some (keyEq 15)) [] [make_irange 1 1 IR_LOSSY]
            (1/3) false].map (fun x => 1 - x.paramsel *
          (irange_list_length x.rangeset : ℚ) /
          (irange_list_length w.rangeset : ℚ))).prod) :=
  boolexpr_combination cxtRange3 AND_EXPR [keyEq 15]
    [WrapperNode.mk (some (keyEq 15)) [] [make_irange 1 1 IR_LOSSY] (1/3) false]
    (by with_unfolding_all rfl)

/-! ### Bounds on the selectivity estimates -/

theorem estimate_paramsel_bounds (prel : PartRelationInfo) (strategy : Nat) :
    0 ≤ estimate_paramsel_using_prel prel strategy ∧
      estimate_paramsel_using_prel prel strategy ≤ 1 := by
  unfold estimate_paramsel_using_prel
  split_ifs
  · constructor
    · positivity
    · rcases Nat.eq_zero_or_pos (PrelChildrenCount prel) with hz | hp
      · simp [hz]
      · rw [div_le_one (by exact_mod_cast hp)]
        exact_mod_cast hp
  · norm_num [DEFAULT_INEQ_SEL]
  · norm_num

theorem handle_const_paramsel_bounds (cxt : WalkerContext) (c : PConst)
    (strategy : Nat) (w : WrapperNode) (h : handle_const cxt c strategy = some w) :
    0 ≤ w.paramsel ∧ w.paramsel ≤ 1 := by
  unfold handle_const at h
  dsimp only at h
  split_ifs at h <;>
    (try split at h) <;>
    (try split_ifs at h) <;>
    (try split at h) <;>
    first
      | (injection h with h2; subst h2;
         simp only [WrapperNode.paramsel];
         first
           | exact estimate_paramsel_bounds cxt.prel _
           | norm_num)
      | simp at h

/-! ### C8: constant-array membership (ANY/ALL) -/

theorem mapM_cons_inv {α β : Type} (f : α → Option β) (x : α) (xs : List α)
    (out : List β) (h : (x :: xs).mapM f = some out) :
    ∃ y ys, f x = some y ∧ xs.mapM f = some ys ∧ out = y :: ys := by
  rw [List.mapM_cons] at h
  rcases hx : f x with _ | y
  · rw [hx] at h
    exact absurd h (by simp)
  · rw [hx] at h
    rcases hxs : xs.mapM f with _ | ys
    · rw [hxs] at h
      exact absurd h (by simp)
    · rw [hxs] at h
      exact ⟨y, ys, rfl, rfl, by simpa using h.symm⟩

theorem mapM_length_eq {α β : Type} (f : α → Option β) :
    ∀ (xs : List α) (out : List β), xs.mapM f = some out → out.length = xs.length := by
  intro xs
  induction xs with
  | nil =>
    intro out h
    simp only [List.mapM_nil, pure, Option.some.injEq] at h
    subst h
    rfl
  | cons x rest ih =>
    intro out h
    rcases mapM_cons_inv f x rest out h with ⟨y, ys, _, hys, rfl⟩
    simp [ih ys hys]

theorem mapM_mem_inv {α β : Type} (f : α → Option β) :
    ∀ (xs : List α) (out : List β), xs.mapM f = some out →
      ∀ y ∈ out, ∃ x, x ∈ xs ∧ f x = some y := by
  intro xs
  induction xs with
  | nil =>
    intro out h y hy
    simp only [List.mapM_nil, pure, Option.some.injEq] at h
    subst h
    exact absurd hy (List.not_mem_nil y)
  | cons x rest ih =>
    intro out h y hy
    rcases mapM_cons_inv f x rest out h with ⟨z, zs, hz, hzs, rfl⟩
    rcases List.mem_cons.mp hy with rfl | hy2
    · exact ⟨x, List.mem_cons_self x rest, hz⟩
    · rcases ih zs hzs y hy2 with ⟨x2, hx2, hfx2⟩
      exact ⟨x2, List.mem_cons_of_mem x hx2, hfx2⟩

theorem arrexpr_fold_eq (cxt : WalkerContext) (strategy : Nat) (useOr : Bool)
    (et : Nat) :
    ∀ (elems : List (Int × Bool)) (subs : List WrapperNode) (rs : RangeSet) (sel : ℚ),
      elems.mapM (fun p => handle_const cxt ⟨p.1, p.2, et, 0⟩ strategy) = some subs →
      arrexpr_fold cxt strategy useOr et elems rs sel =
        some (subs.foldl (fun acc x =>
                if useOr then irange_list_union acc x.rangeset
                else irange_list_intersection acc x.rangeset) rs,
              subs.foldl (fun acc x => max acc x.paramsel) sel) := by
  intro elems
  induction elems with
  | nil =>
    intro subs rs sel hm
    simp only [List.mapM_nil, pure, Option.some.injEq] at hm
    subst hm
    rfl
  | cons p rest ih =>
    intro subs rs sel hm
    rcases mapM_cons_inv _ p rest subs hm with ⟨sub, subsRest, hp, hrest, rfl⟩
    show arrexpr_fold cxt strategy useOr et ((p.1, p.2) :: rest) rs sel = _
    rw [arrexpr_fold, hp]
    exact ih subsRest _ _ hrest

theorem le_foldl_max_init (l : List ℚ) (a : ℚ) : a ≤ l.foldl max a := by
  induction l generalizing a with
  | nil => simp
  | cons x xs ih => exact le_trans (le_max_left a x) (ih (max a x))

theorem mem_le_foldl_max (l : List ℚ) (a : ℚ) : ∀ x ∈ l, x ≤ l.foldl max a := by
  induction l generalizing a with
  | nil => simp
  | cons y ys ih =>
    intro x hx
    rcases List.mem_cons.mp hx with rfl | hx
    · exact le_trans (le_max_right a x) (le_foldl_max_init ys (max a x))
    · exact ih (max a y) x hx

theorem foldl_max_mem (l : List ℚ) (a : ℚ) :
    l.foldl max a = a ∨ l.foldl max a ∈ l := by
  induction l generalizing a with
  | nil => simp
  | cons y ys ih =>
    rcases ih (max a y) with hm | hm
    · rcases max_choice a y with hc | hc
      · rw [List.foldl_cons, hm, hc]
        exact Or.inl rfl
      · rw [List.foldl_cons, hm, hc]
        exact Or.inr (List.mem_cons_self y ys)
    · exact Or.inr (List.mem_cons_of_mem y hm)

/-- C8: for every array-membership expression whose non-array side matches
the partitioning key and whose array is a non-null constant, the rangeset
is the union of the per-element rangesets for ANY, or their intersection
seeded with the full COMPLETE span for ALL; `paramsel` is the maximum of
the element selectivities and 0 when the array has no elements. -/
theorem arrexpr_combination (cxt : WalkerContext) (strategy : Nat) (useOr : Bool)
    (a : ArrayConst) (subs : List WrapperNode)
    (hsubs : a.elems.mapM (fun p => handle_const cxt ⟨p.1, p.2, a.elemtype, 0⟩ strategy)
               = some subs) :
    ∃ w, walk_expr_tree cxt (.earrexpr strategy useOr true (some a)) = some w ∧
      w.rangeset = subs.foldl (fun acc x =>
          if useOr then irange_list_union acc x.rangeset
          else irange_list_intersection acc x.rangeset)
        (if useOr then [] else list_make1_irange_full cxt.prel IR_COMPLETE) ∧
      (∀ s ∈ subs.map WrapperNode.paramsel, s ≤ w.paramsel) ∧
      (subs ≠ [] → w.paramsel ∈ subs.map WrapperNode.paramsel) ∧
      (a.elems = [] → w.paramsel = 0) := by
  have hfold := arrexpr_fold_eq cxt strategy useOr a.elemtype a.elems subs
    (if useOr then [] else list_make1_irange_full cxt.prel IR_COMPLETE) 0 hsubs
  have hlen : subs.length = a.elems.length := mapM_length_eq _ a.elems subs hsubs
  have hnonneg : ∀ x ∈ subs, 0 ≤ x.paramsel := by
    intro x hx
    rcases mapM_mem_inv _ a.elems subs hsubs x hx with ⟨p, _, hp⟩
    exact (handle_const_paramsel_bounds cxt _ strategy x hp).1
  refine ⟨.mk (some (.earrexpr strategy useOr true (some a))) []
      (subs.foldl (fun acc x =>
          if useOr then irange_list_union acc x.rangeset
          else irange_list_intersection acc x.rangeset)
        (if useOr then [] else list_make1_irange_full cxt.prel IR_COMPLETE))
      (if a.elems.length = 0 then 0 else subs.foldl (fun acc x => max acc x.paramsel) 0)
      false, ?_, ?_, ?_, ?_, ?_⟩
  · show handle_arrexpr cxt strategy useOr true (some a) = _
    unfold handle_arrexpr
    rw [if_pos rfl]
    dsimp only
    rw [hfold]
  · rfl
  · intro s hs
    rcases List.mem_map.mp hs with ⟨x, hx, rfl⟩
    show x.paramsel ≤ (if a.elems.length = 0 then 0
      else subs.foldl (fun acc y => max acc y.paramsel) 0)
    have hne : a.elems.length ≠ 0 := by
      intro hz
      rw [hz] at hlen
      rw [List.length_eq_zero.mp hlen] at hx
      exact absurd hx (List.not_mem_nil x)
    rw [if_neg hne, ← List.foldl_map (f := WrapperNode.paramsel) (g := max)]
    exact mem_le_foldl_max _ 0 _ (List.mem_map_of_mem WrapperNode.paramsel hx)
  · intro hne
    show (if a.elems.length = 0 then 0
      else subs.foldl (fun acc y => max acc y.paramsel) 0) ∈ subs.map WrapperNode.paramsel
    have hlz : a.elems.length ≠ 0 := by
      intro hz
      rw [hz] at hlen
      exact hne (List.length_eq_zero.mp hlen)
    rw [if_neg hlz, ← List.foldl_map (f := WrapperNode.paramsel) (g := max)]
    rcases foldl_max_mem (subs.map WrapperNode.paramsel) 0 with hm | hm
    · rcases subs with _ | ⟨s0, srest⟩
      · exact absurd rfl hne
      · have h1 : s0.paramsel ≤ ((s0 :: srest).map WrapperNode.paramsel).foldl max 0 :=
          mem_le_foldl_max _ 0 _ (by simp)
        rw [hm] at h1
        have h0 : 0 ≤ s0.paramsel := hnonneg s0 (by simp)
        have h00 : s0.paramsel = 0 := le_antisymm h1 h0
        rw [hm, ← h00]
        simp
    · exact hm
  · intro hz
    show (if a.elems.length = 0 then 0
      else subs.foldl (fun acc y => max acc y.paramsel) 0) = 0
    rw [if_pos (by rw [hz]; rfl)]

/-- Witness for C8: `key = ANY (ARRAY[1,2,3])` over the HASH fixture. -/
theorem arrexpr_combination_witness :
    ∃ w, walk_expr_tree cxtHash4
        (.earrexpr BTEqualStrategyNumber true true
          (some ⟨23, [(1, false), (2, false), (3, false)]⟩)) = some w ∧
      w.rangeset = [WrapperNode.mk none [] [make_irange 1 1 IR_LOSSY] (1/4) false,
                    WrapperNode.mk none [] [make_irange 2 2 IR_LOSSY] (1/4) false,
                    WrapperNode.mk none [] [make_irange 3 3 IR_LOSSY] (1/4) false].foldl
          (fun acc x =>
            if true then irange_list_union acc x.rangeset
            else irange_list_intersection acc x.rangeset)
          (if true then [] else list_make1_irange_full cxtHash4.prel IR_COMPLETE) ∧
      (∀ s ∈ [WrapperNode.mk none [] [make_irange 1 1 IR_LOSSY] (1/4) false,
              WrapperNode.mk none [] [make_irange 2 2 IR_LOSSY] (1/4) false,
              WrapperNode.mk none [] [make_irange 3 3 IR_LOSSY] (1/4) false].map
                WrapperNode.paramsel, s ≤ w.paramsel) ∧
      ([WrapperNode.mk none [] [make_irange 1 1 IR_LOSSY] (1/4) false,
        WrapperNode.mk none [] [make_irange 2 2 IR_LOSSY] (1/4) false,
        WrapperNode.mk none [] [make_irange 3 3 IR_LOSSY] (1/4) false] ≠ [] →
        w.paramsel ∈ [WrapperNode.mk none [] [make_irange 1 1 IR_LOSSY] (1/4) false,
                      WrapperNode.mk none [] [make_irange 2 2 IR_LOSSY] (1/4) false,
                      WrapperNode.mk none [] [make_irange 3 3 IR_LOSSY] (1/4) false].map
          WrapperNode.paramsel) ∧
      (([(1, false), (2, false), (3, false)] : List (Int × Bool)) = [] →
        w.paramsel = 0) :=
  arrexpr_combination cxtHash4 BTEqualStrategyNumber true
    ⟨23, [(1, false), (2, false), (3, false)]⟩
    [WrapperNode.mk none [] [make_irange 1 1 IR_LOSSY] (1/4) false,
     WrapperNode.mk none [] [make_irange 2 2 IR_LOSSY] (1/4) false,
     WrapperNode.mk none [] [make_irange 3 3 IR_LOSSY] (1/4) false]
    (by with_unfolding_all rfl)

/-! ### Monotonicity of the span bounds and rangeset membership -/

theorem bLE_refl (a : Bound) : bLE a a := by
  cases a <;> simp only [bLE, cmp_bounds, cmpInt] <;> first | omega | (split_ifs <;> omega)

theorem not_bLT_iff {a b : Bound} : ¬ bLT a b ↔ bLE b a := by
  unfold bLT bLE
  rw [cmp_bounds_flip b a]
  omega

theorem cmp_eq_zero_of_bLE_bLE {a b : Bound} (h1 : bLE a b) (h2 : bLE b a) :
    cmp_bounds a b = 0 := by
  unfold bLE at *
  rw [cmp_bounds_flip b a] at h2
  omega

theorem minOf_mono {ranges : List RangeEntry} (hwo : RangesWellOrdered ranges) :
    ∀ j k, j ≤ k → k < ranges.length → bLE (minOf ranges j) (minOf ranges k) := by
  intro j k hjk hk
  induction k with
  | zero =>
    have : j = 0 := Nat.le_zero.mp hjk
    subst this
    exact bLE_refl _
  | succ k ih =>
    rcases Nat.lt_or_ge j (k + 1) with hlt | hge
    · have hj : j ≤ k := Nat.lt_succ_iff.mp hlt
      exact bLE_trans (bLE_trans (ih hj (by omega)) (hwo.1 k (by omega)))
        (hwo.2 k hk)
    · have : j = k + 1 := le_antisymm hjk hge
      subst this
      exact bLE_refl _

theorem maxOf_mono {ranges : List RangeEntry} (hwo : RangesWellOrdered ranges) :
    ∀ j k, j ≤ k → k < ranges.length → bLE (maxOf ranges j) (maxOf ranges k) := by
  intro j k hjk hk
  induction k with
  | zero =>
    have : j = 0 := Nat.le_zero.mp hjk
    subst this
    exact bLE_refl _
  | succ k ih =>
    rcases Nat.lt_or_ge j (k + 1) with hlt | hge
    · have hj : j ≤ k := Nat.lt_succ_iff.mp hlt
      exact bLE_trans (bLE_trans (ih hj (by omega)) (hwo.2 k hk))
        (hwo.1 (k + 1) hk)
    · have : j = k + 1 := le_antisymm hjk hge
      subst this
      exact bLE_refl _

theorem maxOf_le_minOf {ranges : List RangeEntry} (hwo : RangesWellOrdered ranges)
    {j k : Nat} (hjk : j < k) (hk : k < ranges.length) :
    bLE (maxOf ranges j) (minOf ranges k) := by
  have h1 : bLE (maxOf ranges j) (minOf ranges (j + 1)) := hwo.2 j (by omega)
  exact bLE_trans h1 (minOf_mono hwo (j + 1) k hjk hk)

theorem rsContains_nil (p : Nat) : ¬ rsContains [] p := by
  simp [rsContains, irange_list_find, List.find?]

theorem rsContains_cons (r : IRange) (rest : RangeSet) (p : Nat) :
    rsContains (r :: rest) p ↔ (r.lower ≤ p ∧ p ≤ r.upper) ∨ rsContains rest p := by
  unfold rsContains irange_list_find
  rcases hd : decide (r.lower ≤ p ∧ p ≤ r.upper) with _ | _
  · rw [List.find?_cons_of_neg _ (by simp_all)]
    simp only [decide_eq_false_iff_not] at hd
    simp [hd]
  · rw [List.find?_cons_of_pos _ (by simp_all)]
    simp only [decide_eq_true_eq] at hd
    simp [hd]

theorem rsContains_single (a b : Nat) (t : Tag) (p : Nat) :
    rsContains [make_irange a b t] p ↔ a ≤ p ∧ p ≤ b := by
  rw [rsContains_cons]
  simp [rsContains_nil, make_irange]

/-! ### Monotone classification of the binary search -/

theorem isLess_mono {ranges : List RangeEntry} {strategy : Nat} {v : Int}
    (hwo : RangesWellOrdered ranges) {j k : Nat} (hjk : j ≤ k)
    (hk : k < ranges.length) (h : isLess ranges strategy v j) :
    isLess ranges strategy v k := by
  have hm := minOf_mono hwo j k hjk hk
  rcases h with h | ⟨h, hs⟩
  · have : bLT (.fin v) (minOf ranges k) := bLT_of_bLT_of_bLE h hm
    exact Or.inl this
  · have hle : bLE (.fin v) (minOf ranges k) := bLE_trans (cmp_eq_zero_bLE h).1 hm
    unfold bLE at hle
    rcases lt_or_eq_of_le hle with hlt | heq
    · exact Or.inl hlt
    · exact Or.inr ⟨heq, hs⟩

theorem isGreater_antitone {ranges : List RangeEntry} {strategy : Nat} {v : Int}
    (hwo : RangesWellOrdered ranges) {j k : Nat} (hjk : j ≤ k)
    (hk : k < ranges.length) (h : isGreater ranges strategy v k) :
    isGreater ranges strategy v j := by
  have hm := maxOf_mono hwo j k hjk hk
  rcases h with h | ⟨h, hs⟩
  · have : bLT (maxOf ranges j) (.fin v) :=
      bLT_of_bLE_of_bLT hm (cmp_pos_iff.mp h)
    exact Or.inl (cmp_pos_iff.mpr this)
  · have : bLE (maxOf ranges j) (.fin v) :=
      bLE_trans hm (cmp_nonneg_iff.mp h)
    exact Or.inr ⟨cmp_nonneg_iff.mpr this, hs⟩

theorem isMatch_unique {ranges : List RangeEntry} {strategy : Nat} {v : Int}
    (hwo : RangesWellOrdered ranges) :
    ∀ j k, j < ranges.length → k < ranges.length →
      isMatch ranges strategy v j → isMatch ranges strategy v k → j = k := by
  have key : ∀ j k, j < k → k < ranges.length →
      isMatch ranges strategy v j → isMatch ranges strategy v k → False := by
    rintro j k hjk hk ⟨_, hng⟩ ⟨hnl, _⟩
    have hcross := maxOf_le_minOf hwo hjk hk
    have h1 : bLE (.fin v) (maxOf ranges j) := by
      unfold bLE
      by_contra hc
      exact hng (Or.inl (by omega))
    have h2 : bLE (minOf ranges k) (.fin v) := by
      rw [← cmp_nonneg_iff]
      by_contra hc
      exact hnl (Or.inl (by omega))
    by_cases hs : strategy = BTLessStrategyNumber
    · have h2s : bLT (minOf ranges k) (.fin v) := by
        rw [← cmp_pos_iff]
        by_contra hc
        rcases lt_or_eq_of_le (by omega :
            cmp_bounds (.fin v) (minOf ranges k) ≤ 0) with hlt | heq
        · exact hnl (Or.inl hlt)
        · exact hnl (Or.inr ⟨heq, hs⟩)
      have hvv : bLT (.fin v) (.fin v) :=
        bLT_of_bLE_of_bLT (bLE_trans h1 hcross) h2s
      rw [bLT_fin_iff] at hvv
      omega
    · have h1s : bLT (.fin v) (maxOf ranges j) := by
        unfold bLT
        by_contra hc
        exact hng (Or.inr ⟨by omega, hs⟩)
      have hvv : bLT (.fin v) (.fin v) :=
        bLT_of_bLT_of_bLE (bLT_of_bLT_of_bLE h1s hcross) h2
      rw [bLT_fin_iff] at hvv
      omega
  intro j k hj hk hmj hmk
  rcases lt_trichotomy j k with h | h | h
  · exact absurd (key j k h hk hmj hmk) (by simp)
  · exact h
  · exact absurd (key k j h hj hmk hmj) (by simp)

/-! ### Correctness of the binary search -/

theorem pivot_facts (s e n : Int) (hs0 : 0 ≤ s) (hse : s ≤ e + 1)
    (hsn : s ≤ n - 1) (hen : e ≤ n - 1) :
    s ≤ s + Int.tdiv (e - s) 2 ∧ s + Int.tdiv (e - s) 2 ≤ n - 1 ∧
    (s < e → s + Int.tdiv (e - s) 2 < e) := by
  rcases le_or_lt s e with h | h
  · have hdiv : Int.tdiv (e - s) 2 = (e - s) / 2 := Int.tdiv_eq_ediv (by omega) (by omega)
    exact ⟨by omega, by omega, fun hlt => by omega⟩
  · have he : e = s - 1 := by omega
    have h0 : Int.tdiv (e - s) 2 = 0 := by
      rw [he, show s - 1 - s = -1 by ring]
      decide
    exact ⟨by omega, by omega, fun hlt => by omega⟩

theorem bsr_found_sound (ranges : List RangeEntry) (strategy : Nat) (v : Int) :
    ∀ (μ : Nat) (s e : Int), (e + 1 - s).toNat ≤ μ → 0 ≤ s →
      s ≤ e + 1 → s ≤ (ranges.length : Int) - 1 → e ≤ (ranges.length : Int) - 1 →
      ∀ i lossy, binary_search_ranges ranges strategy (.fin v) s e = .found i lossy →
        0 ≤ i ∧ i ≤ (ranges.length : Int) - 1 ∧
        isMatch ranges strategy v i.toNat ∧
        lossy = ! decide
          ((strategy = BTGreaterEqualStrategyNumber ∧
            cmp_bounds (.fin v) (minOf ranges i.toNat) = 0) ∨
           (strategy = BTLessStrategyNumber ∧
            cmp_bounds (.fin v) (maxOf ranges i.toNat) = 0)) := by
  intro μ
  induction μ using Nat.strong_induction_on with
  | _ μ ih =>
    intro s e hμ hs0 hse hsn hen i lossy hfound
    have hpf := pivot_facts s e (ranges.length : Int) hs0 hse hsn hen
    rw [binary_search_ranges] at hfound
    dsimp only at hfound
    split_ifs at hfound with hmatch hge hless
    · -- the pivot matched
      injection hfound with hi hl
      subst hi
      subst hl
      refine ⟨by omega, by omega, ?_, rfl⟩
      unfold isMatch isLess isGreater minOf maxOf
      exact hmatch
    · -- descend left
      have hslt : s < e := by omega
      have hdec : ((s + Int.tdiv (e - s) 2 - 1) + 1 - s).toNat < (e + 1 - s).toNat := by
        have := hpf.2.2 hslt
        omega
      exact ih ((s + Int.tdiv (e - s) 2 - 1) + 1 - s).toNat (by omega) s
        (s + Int.tdiv (e - s) 2 - 1) (le_refl _) hs0 (by omega) hsn (by omega)
        i lossy hfound
    · -- descend right
      have hslt : s < e := by omega
      have hlt := hpf.2.2 hslt
      have hdec : (e + 1 - (s + Int.tdiv (e - s) 2 + 1)).toNat < (e + 1 - s).toNat := by
        omega
      exact ih (e + 1 - (s + Int.tdiv (e - s) 2 + 1)).toNat (by omega)
        (s + Int.tdiv (e - s) 2 + 1) e (le_refl _) (by omega) (by omega) (by omega) hen
        i lossy hfound

theorem bsr_no_gap (ranges : List RangeEntry) (strategy : Nat) (v : Int)
    (hwo : RangesWellOrdered ranges) :
    ∀ (μ : Nat) (s e : Int), (e + 1 - s).toNat ≤ μ → 0 ≤ s →
      s ≤ e + 1 → s ≤ (ranges.length : Int) - 1 → e ≤ (ranges.length : Int) - 1 →
      ∀ m : Nat, s ≤ (m : Int) → (m : Int) ≤ e → isMatch ranges strategy v m →
      binary_search_ranges ranges strategy (.fin v) s e ≠ .gap := by
  intro μ
  induction μ using Nat.strong_induction_on with
  | _ μ ih =>
    intro s e hμ hs0 hse hsn hen m hms hme hmm hgap
    have hpf := pivot_facts s e (ranges.length : Int) hs0 hse hsn hen
    rw [binary_search_ranges] at hgap
    dsimp only at hgap
    split_ifs at hgap with hmatch hge hless
    · -- the indices met without a match: the claimed match must be the pivot
      have hmse : s = e := by omega
      have hpiv : s + Int.tdiv (e - s) 2 = s := by
        rw [hmse]
        simp
      have hmeq : (m : Int) = s := by omega
      apply hmatch
      have : ((s + Int.tdiv (e - s) 2).toNat) = m := by omega
      unfold isMatch isLess isGreater minOf maxOf at hmm
      rw [← this] at hmm
      exact hmm
    · -- descend left keeps the match
      have hslt : s < e := by omega
      have hlt := hpf.2.2 hslt
      have hmlt : (m : Int) ≤ s + Int.tdiv (e - s) 2 - 1 := by
        by_contra hc
        have hge2 : (s + Int.tdiv (e - s) 2) ≤ (m : Int) := by omega
        have : isLess ranges strategy v m := by
          refine isLess_mono hwo (j := (s + Int.tdiv (e - s) 2).toNat) ?_ ?_ ?_
          · omega
          · omega
          · unfold isLess minOf
            exact hless
        exact hmm.1 this
      exact ih ((s + Int.tdiv (e - s) 2 - 1) + 1 - s).toNat (by omega) s
        (s + Int.tdiv (e - s) 2 - 1) (le_refl _) hs0 (by omega) hsn (by omega)
        m hms hmlt hmm hgap
    · -- descend right keeps the match
      have hslt : s < e := by omega
      have hlt := hpf.2.2 hslt
      have hgre : isGreater ranges strategy v (s + Int.tdiv (e - s) 2).toNat := by
        by_cases hl : isLess ranges strategy v (s + Int.tdiv (e - s) 2).toNat
        · unfold isLess minOf at hl
          exact absurd hl hless
        · by_contra hng
          apply hmatch
          constructor
          · intro hraw
            exact hl (by unfold isLess minOf; exact hraw)
          · intro hraw
            exact hng (by unfold isGreater maxOf; exact hraw)
      have hmgt : s + Int.tdiv (e - s) 2 + 1 ≤ (m : Int) := by
        by_contra hc
        have hle2 : (m : Int) ≤ s + Int.tdiv (e - s) 2 := by omega
        have : isGreater ranges strategy v m :=
          isGreater_antitone hwo (by omega) (by omega) hgre
        exact hmm.2 this
      exact ih (e + 1 - (s + Int.tdiv (e - s) 2 + 1)).toNat (by omega)
        (s + Int.tdiv (e - s) 2 + 1) e (le_refl _) (by omega) (by omega) (by omega) hen
        m hmgt hme hmm hgap

/-! ### C4: equality value inside the envelope but in a gap -/

/-- C4: for every RANGE scheme and an equality test whose value lies inside
the absolute `[min, max)` envelope but within a hole covered by no
partition, `select_range_partitions` returns the empty rangeset with
`foundGap = true`. -/
theorem equality_in_gap (ranges : List RangeEntry) (v : Int)
    (hn : 0 < ranges.length)
    (hmin : 0 ≤ cmp_bounds (.fin v) (minOf ranges 0))
    (hmax : cmp_bounds (.fin v) (maxOf ranges (ranges.length - 1)) < 0)
    (hgap : InGap ranges v) :
    select_range_partitions v ranges BTEqualStrategyNumber = some ([], true) := by
  rw [select_eq_char]
  rw [if_neg (by intro h; rw [h] at hn; exact absurd hn (by simp)),
      if_neg (by omega), if_neg (by omega)]
  cases hbs : binary_search_ranges ranges BTEqualStrategyNumber (.fin v) 0
      ((ranges.length : Int) - 1) with
  | found i lossy =>
    exfalso
    have hf := bsr_found_sound ranges BTEqualStrategyNumber v
      (((ranges.length : Int) - 1) + 1 - 0).toNat 0 ((ranges.length : Int) - 1)
      (le_refl _) (le_refl 0) (by omega) (by omega) (by omega) i lossy hbs
    rcases hf with ⟨hi0, hin, ⟨hnl, hng⟩, _⟩
    apply hgap i.toNat (by omega)
    constructor
    · rw [← cmp_nonneg_iff]
      unfold isLess at hnl
      omega
    · unfold isGreater at hng
      have h3 : BTEqualStrategyNumber ≠ BTLessStrategyNumber := by decide
      have hle : cmp_bounds (.fin v) (maxOf ranges i.toNat) < 0 := by
        by_contra hc
        exact hng (Or.inr ⟨by omega, h3⟩)
      exact hle
  | gap => rfl

/-- Witness for C4: the gap fixture with the in-gap value 15. -/
theorem equality_in_gap_witness :
    select_range_partitions 15 gapRanges BTEqualStrategyNumber = some ([], true) :=
  equality_in_gap gapRanges 15 (by decide) (by decide) (by decide) (by decide)

/-! ### C5: values on a shared partition boundary (corrected) -/

/-- Counterexample to C5 as stated: in the scheme `[0,5) [5,5)` (a valid
ranges array per the data model, whose second partition is empty),
partition 0's max equals partition 1's min, yet searching that very bound
under `≥` hits the absolute-max short-circuit and returns the empty
rangeset instead of the claimed `{[1, 1], COMPLETE}`. -/
theorem boundary_min_counterexample :
    RangesWellOrdered emptySpanRanges ∧
    cmp_bounds (maxOf emptySpanRanges 0) (minOf emptySpanRanges 1) = 0 ∧
    cmp_bounds (.fin 5) (minOf emptySpanRanges 1) = 0 ∧
    select_range_partitions 5 emptySpanRanges BTGreaterEqualStrategyNumber
      = some ([], false) ∧
    ([] : RangeSet) ≠ [make_irange 1 1 IR_COMPLETE] := by
  refine ⟨by decide, by decide, by decide, by decide, by decide⟩

/-- C5 (amended): for every RANGE scheme whose partitions are all nonempty
(`min < max`) in which partition `k`'s max bound equals partition `k+1`'s
min bound, searching the value exactly equal to partition `k+1`'s min bound
yields `{[k+1, n-1], COMPLETE}` (no lossy span) under `≥` and
`{[0, k], COMPLETE}` under `<`. -/
theorem boundary_min_complete (ranges : List RangeEntry) (v : Int) (k : Nat)
    (hwo : RangesWellOrdered ranges)
    (hne : RangesNonempty ranges)
    (hk : k + 1 < ranges.length)
    (hb : cmp_bounds (maxOf ranges k) (minOf ranges (k + 1)) = 0)
    (hv : cmp_bounds (.fin v) (minOf ranges (k + 1)) = 0) :
    select_range_partitions v ranges BTGreaterEqualStrategyNumber =
      some ([make_irange (k + 1) (ranges.length - 1) IR_COMPLETE], false) ∧
    select_range_partitions v ranges BTLessStrategyNumber =
      some ([make_irange 0 k IR_COMPLETE], false) := by
  have hvmin := cmp_eq_zero_bLE hv
  have hbb := cmp_eq_zero_bLE hb
  have hvmaxk : cmp_bounds (.fin v) (maxOf ranges k) = 0 :=
    cmp_eq_zero_of_bLE_bLE (bLE_trans hvmin.1 hbb.2) (bLE_trans hbb.1 hvmin.2)
  have hvmaxk1 : bLT (.fin v) (maxOf ranges (k + 1)) :=
    bLT_of_bLE_of_bLT hvmin.1 (hne (k + 1) hk)
  have henvmax : bLT (.fin v) (maxOf ranges (ranges.length - 1)) :=
    bLT_of_bLT_of_bLE hvmaxk1
      (maxOf_mono hwo (k + 1) (ranges.length - 1) (by omega) (by omega))
  have henvmin : bLT (minOf ranges 0) (.fin v) :=
    bLT_of_bLE_of_bLT (minOf_mono hwo 0 k (by omega) (by omega))
      (bLT_of_bLT_of_bLE (hne k (by omega)) (cmp_eq_zero_bLE hvmaxk).2)
  have hmatch_ge : isMatch ranges BTGreaterEqualStrategyNumber v (k + 1) := by
    constructor
    · intro hl
      rcases hl with hl | ⟨_, hl⟩
      · omega
      · exact absurd hl (by decide)
    · intro hg
      unfold bLT at hvmaxk1
      rcases hg with hg | ⟨hg, _⟩ <;> omega
  have hmatch_lt : isMatch ranges BTLessStrategyNumber v k := by
    have hminkv : bLT (minOf ranges k) (.fin v) :=
      bLT_of_bLT_of_bLE (hne k (by omega)) (cmp_eq_zero_bLE hvmaxk).2
    rw [← cmp_pos_iff] at hminkv
    constructor
    · intro hl
      rcases hl with hl | ⟨hl, _⟩ <;> omega
    · intro hg
      rcases hg with hg | ⟨_, hg⟩
      · omega
      · exact hg rfl
  unfold bLT at henvmax
  rw [← cmp_pos_iff] at henvmin
  constructor
  · rw [select_ge_char]
    rw [if_neg (by intro h; rw [h] at hk; exact absurd hk (by simp)),
        if_neg (by omega), if_neg (by omega)]
    cases hbs : binary_search_ranges ranges BTGreaterEqualStrategyNumber (.fin v) 0
        ((ranges.length : Int) - 1) with
    | found i lossy =>
      have hf := bsr_found_sound ranges BTGreaterEqualStrategyNumber v
        (((ranges.length : Int) - 1) + 1 - 0).toNat 0 ((ranges.length : Int) - 1)
        (le_refl _) (le_refl 0) (by omega) (by omega) (by omega) i lossy hbs
      rcases hf with ⟨hi0, hin, hm, hl⟩
      have hik : i.toNat = k + 1 :=
        isMatch_unique hwo i.toNat (k + 1) (by omega) hk hm hmatch_ge
      rw [hik, hv] at hl
      have hlf : lossy = false := by
        rw [hl]
        simp
      rw [hlf]
      simp [hik]
    | gap =>
      exfalso
      exact bsr_no_gap ranges BTGreaterEqualStrategyNumber v hwo
        (((ranges.length : Int) - 1) + 1 - 0).toNat 0 ((ranges.length : Int) - 1)
        (le_refl _) (le_refl 0) (by omega) (by omega) (by omega)
        (k + 1) (by omega) (by omega) hmatch_ge hbs
  · rw [select_lt_char]
    rw [if_neg (by intro h; rw [h] at hk; exact absurd hk (by simp)),
        if_neg (by omega), if_neg (by omega)]
    cases hbs : binary_search_ranges ranges BTLessStrategyNumber (.fin v) 0
        ((ranges.length : Int) - 1) with
    | found i lossy =>
      have hf := bsr_found_sound ranges BTLessStrategyNumber v
        (((ranges.length : Int) - 1) + 1 - 0).toNat 0 ((ranges.length : Int) - 1)
        (le_refl _) (le_refl 0) (by omega) (by omega) (by omega) i lossy hbs
      rcases hf with ⟨hi0, hin, hm, hl⟩
      have hik : i.toNat = k :=
        isMatch_unique hwo i.toNat k (by omega) (by omega) hm hmatch_lt
      rw [hik, hvmaxk] at hl
      have hlf : lossy = false := by
        rw [hl]
        simp
      rw [hlf]
      simp [hik]
    | gap =>
      exfalso
      exact bsr_no_gap ranges BTLessStrategyNumber v hwo
        (((ranges.length : Int) - 1) + 1 - 0).toNat 0 ((ranges.length : Int) - 1)
        (le_refl _) (le_refl 0) (by omega) (by omega) (by omega)
        k (by omega) (by omega) hmatch_lt hbs

/-- Witness for C5 (amended): the 3-partition fixture ranges, `k = 0`,
value 10 (partition 1's min bound). -/
theorem boundary_min_complete_witness :
    select_range_partitions 10 prelRange3.ranges BTGreaterEqualStrategyNumber =
      some ([make_irange 1 (prelRange3.ranges.length - 1) IR_COMPLETE], false) ∧
    select_range_partitions 10 prelRange3.ranges BTLessStrategyNumber =
      some ([make_irange 0 0 IR_COMPLETE], false) :=
  boundary_min_complete prelRange3.ranges 10 0 (by decide) (by decide) (by decide)
    (by decide) (by decide)

/-! ### C1: pruning soundness (corrected: requires contiguity) -/

theorem exists_cover {ranges : List RangeEntry} {v : Int}
    (hcont : RangesContiguous ranges) (hn : 0 < ranges.length)
    (hlast : cmp_bounds (.fin v) (maxOf ranges (ranges.length - 1)) < 0)
    (hfirst : 0 ≤ cmp_bounds (.fin v) (minOf ranges 0)) :
    ∃ m, m < ranges.length ∧ 0 ≤ cmp_bounds (.fin v) (minOf ranges m) ∧
      cmp_bounds (.fin v) (maxOf ranges m) < 0 := by
  have hex : ∃ m, cmp_bounds (.fin v) (maxOf ranges m) < 0 :=
    ⟨ranges.length - 1, hlast⟩
  refine ⟨Nat.find hex, ?_, ?_, Nat.find_spec hex⟩
  · have := Nat.find_min' hex hlast
    omega
  · by_cases h0 : Nat.find hex = 0
    · rw [h0]
      exact hfirst
    · have hprev : ¬ cmp_bounds (.fin v) (maxOf ranges (Nat.find hex - 1)) < 0 :=
        Nat.find_min hex (by omega)
      have hc := hcont (Nat.find hex - 1) (by
        have := Nat.find_min' hex hlast
        omega)
      rw [show Nat.find hex - 1 + 1 = Nat.find hex by omega] at hc
      exact cmp_nonneg_iff.mpr
        (bLE_trans (cmp_eq_zero_bLE hc).2 (cmp_nonneg_iff.mp (by omega)))

theorem exists_cover_lt {ranges : List RangeEntry} {v : Int}
    (hcont : RangesContiguous ranges) (hn : 0 < ranges.length)
    (hlast : cmp_bounds (.fin v) (maxOf ranges (ranges.length - 1)) < 0)
    (hfirst : 0 < cmp_bounds (.fin v) (minOf ranges 0)) :
    ∃ m, m < ranges.length ∧ 0 < cmp_bounds (.fin v) (minOf ranges m) ∧
      cmp_bounds (.fin v) (maxOf ranges m) ≤ 0 := by
  have hex : ∃ m, cmp_bounds (.fin v) (maxOf ranges m) ≤ 0 :=
    ⟨ranges.length - 1, by omega⟩
  refine ⟨Nat.find hex, ?_, ?_, Nat.find_spec hex⟩
  · have := Nat.find_min' hex (show
      cmp_bounds (.fin v) (maxOf ranges (ranges.length - 1)) ≤ 0 by omega)
    omega
  · by_cases h0 : Nat.find hex = 0
    · rw [h0]
      exact hfirst
    · have hprev : ¬ cmp_bounds (.fin v) (maxOf ranges (Nat.find hex - 1)) ≤ 0 :=
        Nat.find_min hex (by omega)
      have hc := hcont (Nat.find hex - 1) (by
        have := Nat.find_min' hex (show
          cmp_bounds (.fin v) (maxOf ranges (ranges.length - 1)) ≤ 0 by omega)
        omega)
      rw [show Nat.find hex - 1 + 1 = Nat.find hex by omega] at hc
      exact cmp_pos_iff.mpr
        (bLT_of_bLE_of_bLT (cmp_eq_zero_bLE hc).2 (cmp_pos_iff.mp (by omega)))

theorem gapRanges_bsearch :
    binary_search_ranges gapRanges BTGreaterEqualStrategyNumber (.fin 15) 0
      ((gapRanges.length : Int) - 1) = .gap := by
  have hlen : ((gapRanges.length : Int) - 1) = 1 := by decide
  have h1 : binary_search_ranges gapRanges BTGreaterEqualStrategyNumber
      (.fin 15) 1 1 = .gap := by
    rw [binary_search_ranges]
    norm_num [gapRanges, dummyRE, cmp_bounds, cmpInt,
      show Int.tdiv (0 : Int) 2 = 0 from by decide]
  rw [hlen, binary_search_ranges]
  norm_num [gapRanges, dummyRE, cmp_bounds, cmpInt,
    show Int.tdiv (1 : Int) 2 = 0 from by decide]
  exact h1

/-- Counterexample to C1 as stated: over the gapped scheme `[0,10) [20,30)`
(sorted and non-overlapping, as the claim permits), the predicate
`key >= 15` is satisfied by key 20 lying in partition 1's span, yet
`select_range_partitions` lands in the gap and returns the empty rangeset,
omitting partition 1. -/
theorem pruning_unsound_with_gaps :
    RangesWellOrdered gapRanges ∧
    spanContains gapRanges 1 20 ∧
    opSatisfies BTGreaterEqualStrategyNumber 20 15 ∧
    select_range_partitions 15 gapRanges BTGreaterEqualStrategyNumber
      = some ([], true) ∧
    ¬ rsContains [] 1 := by
  refine ⟨by decide, by decide, by decide, ?_, by decide⟩
  rw [select_ge_char]
  rw [if_neg (by decide), if_neg (by decide), if_neg (by decide)]
  rw [gapRanges_bsearch]

/-- C1 (amended): pruning soundness holds on contiguous schemes. For every
RANGE partitioning scheme whose ranges array is sorted, non-overlapping
AND gap-free (each partition's max equals its successor's min), and every
comparison operator in {<, <=, =, >=, >}, the rangeset returned by
`select_range_partitions` contains every partition index whose `[min, max)`
span contains at least one key value satisfying `key OP value`. -/
theorem pruning_soundness (ranges : List RangeEntry) (v w : Int)
    (strategy : Nat) (p : Nat) (rs : RangeSet) (fg : Bool)
    (hwo : RangesWellOrdered ranges) (hcont : RangesContiguous ranges)
    (hp : p < ranges.length)
    (hw : spanContains ranges p w)
    (hsat : opSatisfies strategy w v)
    (hsel : select_range_partitions v ranges strategy = some (rs, fg)) :
    rsContains rs p := by
  have hn : 0 < ranges.length := by omega
  have hner : ranges ≠ [] := by
    intro hh
    rw [hh] at hp
    exact absurd hp (by simp)
  obtain ⟨hw1, hw2⟩ := hw
  have hA : bLE (minOf ranges 0) (.fin w) :=
    bLE_trans (minOf_mono hwo 0 p (by omega) hp) hw1
  have hB : bLT (.fin w) (maxOf ranges (ranges.length - 1)) :=
    bLT_of_bLT_of_bLE hw2
      (maxOf_mono hwo p (ranges.length - 1) (by omega) (by omega))
  rcases hsat with ⟨hs, hc⟩ | ⟨hs, hc⟩ | ⟨hs, hc⟩ | ⟨hs, hc⟩ | ⟨hs, hc⟩ <;> subst hs
  · -- key < value
    rw [select_lt_char, if_neg hner] at hsel
    have hAv : 0 < cmp_bounds (.fin v) (minOf ranges 0) :=
      cmp_pos_iff.mpr (bLT_of_bLE_of_bLT hA (bLT_fin_iff.mpr hc))
    rw [if_neg (by omega)] at hsel
    by_cases h2 : 0 ≤ cmp_bounds (.fin v) (maxOf ranges (ranges.length - 1))
    · rw [if_pos h2] at hsel
      simp only [Option.some.injEq, Prod.mk.injEq] at hsel
      rw [← hsel.1, rsContains_single]
      omega
    · rw [if_neg h2] at hsel
      revert hsel
      cases hbs : binary_search_ranges ranges BTLessStrategyNumber (.fin v) 0
          ((ranges.length : Int) - 1) with
      | gap =>
        intro _
        exfalso
        obtain ⟨m, hm1, hm2, hm3⟩ := exists_cover_lt hcont hn (by omega) hAv
        have hmm : isMatch ranges BTLessStrategyNumber v m := by
          constructor
          · intro hl
            rcases hl with hx | ⟨hx, _⟩ <;> omega
          · intro hg
            rcases hg with hx | ⟨_, hx⟩
            · omega
            · exact hx rfl
        exact bsr_no_gap ranges BTLessStrategyNumber v hwo
          (((ranges.length : Int) - 1) + 1 - 0).toNat 0 ((ranges.length : Int) - 1)
          (le_refl _) (le_refl 0) (by omega) (by omega) (by omega)
          m (by omega) (by omega) hmm hbs
      | found i lossy =>
        intro hsel
        obtain ⟨hi0, hin, hm, _⟩ := bsr_found_sound ranges BTLessStrategyNumber v
          (((ranges.length : Int) - 1) + 1 - 0).toNat 0 ((ranges.length : Int) - 1)
          (le_refl _) (le_refl 0) (by omega) (by omega) (by omega) i lossy hbs
        simp only [Option.some.injEq, Prod.mk.injEq] at hsel
        have hip : p ≤ i.toNat := by
          by_contra hcp
          push_neg at hcp
          have hng : ¬ (0 < cmp_bounds (.fin v) (maxOf ranges i.toNat)) :=
            fun hx => hm.2 (Or.inl hx)
          have h1 : bLE (.fin v) (maxOf ranges i.toNat) := by
            unfold bLE
            omega
          have h3 : bLE (.fin v) (.fin w) :=
            bLE_trans (bLE_trans h1 (maxOf_le_minOf hwo hcp hp)) hw1
          rw [bLE_fin_iff] at h3
          omega
        rw [← hsel.1]
        cases lossy with
        | false =>
          rw [if_neg (by simp), rsContains_single]
          omega
        | true =>
          rw [if_pos rfl]
          by_cases h0i : (0 : Int) < i
          · rw [if_pos h0i]
            simp only [List.singleton_append, rsContains_cons, rsContains_single,
              make_irange]
            omega
          · rw [if_neg h0i]
            simp only [List.nil_append, rsContains_single]
            omega
  · -- key <= value
    rw [select_le_char, if_neg hner] at hsel
    have hAv : 0 ≤ cmp_bounds (.fin v) (minOf ranges 0) :=
      cmp_nonneg_iff.mpr (bLE_trans hA (bLE_fin_iff.mpr hc))
    rw [if_neg (by omega)] at hsel
    by_cases h2 : 0 ≤ cmp_bounds (.fin v) (maxOf ranges (ranges.length - 1))
    · rw [if_pos h2] at hsel
      simp only [Option.some.injEq, Prod.mk.injEq] at hsel
      rw [← hsel.1, rsContains_single]
      omega
    · rw [if_neg h2] at hsel
      revert hsel
      cases hbs : binary_search_ranges ranges BTLessEqualStrategyNumber (.fin v) 0
          ((ranges.length : Int) - 1) with
      | gap =>
        intro _
        exfalso
        obtain ⟨m, hm1, hm2, hm3⟩ := exists_cover hcont hn (by omega) hAv
        have hmm : isMatch ranges BTLessEqualStrategyNumber v m := by
          constructor
          · intro hl
            rcases hl with hx | ⟨_, hx⟩
            · omega
            · exact absurd hx (by decide)
          · intro hg
            rcases hg with hx | ⟨hx, _⟩ <;> omega
        exact bsr_no_gap ranges BTLessEqualStrategyNumber v hwo
          (((ranges.length : Int) - 1) + 1 - 0).toNat 0 ((ranges.length : Int) - 1)
          (le_refl _) (le_refl 0) (by omega) (by omega) (by omega)
          m (by omega) (by omega) hmm hbs
      | found i lossy =>
        intro hsel
        obtain ⟨hi0, hin, hm, _⟩ := bsr_found_sound ranges BTLessEqualStrategyNumber v
          (((ranges.length : Int) - 1) + 1 - 0).toNat 0 ((ranges.length : Int) - 1)
          (le_refl _) (le_refl 0) (by omega) (by omega) (by omega) i lossy hbs
        simp only [Option.some.injEq, Prod.mk.injEq] at hsel
        have hip : p ≤ i.toNat := by
          by_contra hcp
          push_neg at hcp
          have hng : ¬ (0 ≤ cmp_bounds (.fin v) (maxOf ranges i.toNat)) :=
            fun hx => hm.2 (Or.inr ⟨hx, by decide⟩)
          have h1 : bLT (.fin v) (maxOf ranges i.toNat) := by
            unfold bLT
            omega
          have h3 : bLT (.fin v) (.fin w) :=
            bLT_of_bLT_of_bLE h1
              (bLE_trans (maxOf_le_minOf hwo hcp hp) hw1)
          rw [bLT_fin_iff] at h3
          omega
        rw [← hsel.1]
        cases lossy with
        | false =>
          rw [if_neg (by simp), rsContains_single]
          omega
        | true =>
          rw [if_pos rfl]
          by_cases h0i : (0 : Int) < i
          · rw [if_pos h0i]
            simp only [List.singleton_append, rsContains_cons, rsContains_single,
              make_irange]
            omega
          · rw [if_neg h0i]
            simp only [List.nil_append, rsContains_single]
            omega
  · -- key = value
    subst hc
    rw [select_eq_char, if_neg hner] at hsel
    have hAv : 0 ≤ cmp_bounds (.fin w) (minOf ranges 0) := cmp_nonneg_iff.mpr hA
    have hBv : cmp_bounds (.fin w) (maxOf ranges (ranges.length - 1)) < 0 := hB
    rw [if_neg (by omega), if_neg (by omega)] at hsel
    revert hsel
    cases hbs : binary_search_ranges ranges BTEqualStrategyNumber (.fin w) 0
        ((ranges.length : Int) - 1) with
    | gap =>
      intro _
      exfalso
      obtain ⟨m, hm1, hm2, hm3⟩ := exists_cover hcont hn hBv hAv
      have hmm : isMatch ranges BTEqualStrategyNumber w m := by
        constructor
        · intro hl
          rcases hl with hx | ⟨_, hx⟩
          · omega
          · exact absurd hx (by decide)
        · intro hg
          rcases hg with hx | ⟨hx, _⟩ <;> omega
      exact bsr_no_gap ranges BTEqualStrategyNumber w hwo
        (((ranges.length : Int) - 1) + 1 - 0).toNat 0 ((ranges.length : Int) - 1)
        (le_refl _) (le_refl 0) (by omega) (by omega) (by omega)
        m (by omega) (by omega) hmm hbs
    | found i lossy =>
      intro hsel
      obtain ⟨hi0, hin, hm, _⟩ := bsr_found_sound ranges BTEqualStrategyNumber w
        (((ranges.length : Int) - 1) + 1 - 0).toNat 0 ((ranges.length : Int) - 1)
        (le_refl _) (le_refl 0) (by omega) (by omega) (by omega) i lossy hbs
      simp only [Option.some.injEq, Prod.mk.injEq] at hsel
      have hmp : isMatch ranges BTEqualStrategyNumber w p := by
        constructor
        · intro hl
          have h5 : 0 ≤ cmp_bounds (.fin w) (minOf ranges p) :=
            cmp_nonneg_iff.mpr hw1
          rcases hl with hx | ⟨_, hx⟩
          · omega
          · exact absurd hx (by decide)
        · intro hg
          have h6 : cmp_bounds (.fin w) (maxOf ranges p) < 0 := hw2
          rcases hg with hx | ⟨hx, _⟩ <;> omega
      have hpi : p = i.toNat := isMatch_unique hwo p i.toNat hp (by omega) hmp hm
      rw [← hsel.1, rsContains_single]
      omega
  · -- key >= value
    rw [select_ge_char, if_neg hner] at hsel
    have hBv : cmp_bounds (.fin v) (maxOf ranges (ranges.length - 1)) < 0 := by
      have h := bLT_of_bLE_of_bLT (bLE_fin_iff.mpr hc) hB
      unfold bLT at h
      exact h
    rw [if_neg (by omega)] at hsel
    by_cases h2 : cmp_bounds (.fin v) (minOf ranges 0) ≤ 0
    · rw [if_pos h2] at hsel
      simp only [Option.some.injEq, Prod.mk.injEq] at hsel
      rw [← hsel.1, rsContains_single]
      omega
    · rw [if_neg h2] at hsel
      revert hsel
      cases hbs : binary_search_ranges ranges BTGreaterEqualStrategyNumber (.fin v) 0
          ((ranges.length : Int) - 1) with
      | gap =>
        intro _
        exfalso
        obtain ⟨m, hm1, hm2, hm3⟩ := exists_cover hcont hn hBv (by omega)
        have hmm : isMatch ranges BTGreaterEqualStrategyNumber v m := by
          constructor
          · intro hl
            rcases hl with hx | ⟨_, hx⟩
            · omega
            · exact absurd hx (by decide)
          · intro hg
            rcases hg with hx | ⟨hx, _⟩ <;> omega
        exact bsr_no_gap ranges BTGreaterEqualStrategyNumber v hwo
          (((ranges.length : Int) - 1) + 1 - 0).toNat 0 ((ranges.length : Int) - 1)
          (le_refl _) (le_refl 0) (by omega) (by omega) (by omega)
          m (by omega) (by omega) hmm hbs
      | found i lossy =>
        intro hsel
        obtain ⟨hi0, hin, hm, _⟩ := bsr_found_sound ranges
          BTGreaterEqualStrategyNumber v
          (((ranges.length : Int) - 1) + 1 - 0).toNat 0 ((ranges.length : Int) - 1)
          (le_refl _) (le_refl 0) (by omega) (by omega) (by omega) i lossy hbs
        simp only [Option.some.injEq, Prod.mk.injEq] at hsel
        have hip : i.toNat ≤ p := by
          by_contra hcp
          push_neg at hcp
          have hnl : ¬ (cmp_bounds (.fin v) (minOf ranges i.toNat) < 0) :=
            fun hx => hm.1 (Or.inl hx)
          have h1 : bLE (minOf ranges i.toNat) (.fin v) :=
            cmp_nonneg_iff.mp (by omega)
          have h3 : bLT (.fin w) (.fin v) :=
            bLT_of_bLT_of_bLE hw2
              (bLE_trans (maxOf_le_minOf hwo hcp (by omega)) h1)
          rw [bLT_fin_iff] at h3
          omega
        rw [← hsel.1]
        cases lossy with
        | false =>
          rw [if_neg (by simp), rsContains_single]
          omega
        | true =>
          rw [if_pos rfl]
          by_cases hlt : i < (ranges.length : Int) - 1
          · rw [if_pos hlt]
            simp only [List.singleton_append, rsContains_cons, rsContains_single,
              make_irange]
            omega
          · rw [if_neg hlt]
            simp only [List.append_nil, rsContains_single]
            omega
  · -- key > value
    rw [select_gt_char, if_neg hner] at hsel
    have hBv : cmp_bounds (.fin v) (maxOf ranges (ranges.length - 1)) < 0 := by
      have h := bLT_of_bLE_of_bLT (bLE_of_bLT (bLT_fin_iff.mpr hc)) hB
      unfold bLT at h
      exact h
    rw [if_neg (by omega)] at hsel
    by_cases h2 : cmp_bounds (.fin v) (minOf ranges 0) < 0
    · rw [if_pos h2] at hsel
      simp only [Option.some.injEq, Prod.mk.injEq] at hsel
      rw [← hsel.1, rsContains_single]
      omega
    · rw [if_neg h2] at hsel
      revert hsel
      cases hbs : binary_search_ranges ranges BTGreaterStrategyNumber (.fin v) 0
          ((ranges.length : Int) - 1) with
      | gap =>
        intro _
        exfalso
        obtain ⟨m, hm1, hm2, hm3⟩ := exists_cover hcont hn hBv (by omega)
        have hmm : isMatch ranges BTGreaterStrategyNumber v m := by
          constructor
          · intro hl
            rcases hl with hx | ⟨_, hx⟩
            · omega
            · exact absurd hx (by decide)
          · intro hg
            rcases hg with hx | ⟨hx, _⟩ <;> omega
        exact bsr_no_gap ranges BTGreaterStrategyNumber v hwo
          (((ranges.length : Int) - 1) + 1 - 0).toNat 0 ((ranges.length : Int) - 1)
          (le_refl _) (le_refl 0) (by omega) (by omega) (by omega)
          m (by omega) (by omega) hmm hbs
      | found i lossy =>
        intro hsel
        obtain ⟨hi0, hin, hm, _⟩ := bsr_found_sound ranges BTGreaterStrategyNumber v
          (((ranges.length : Int) - 1) + 1 - 0).toNat 0 ((ranges.length : Int) - 1)
          (le_refl _) (le_refl 0) (by omega) (by omega) (by omega) i lossy hbs
        simp only [Option.some.injEq, Prod.mk.injEq] at hsel
        have hip : i.toNat ≤ p := by
          by_contra hcp
          push_neg at hcp
          have hnl : ¬ (cmp_bounds (.fin v) (minOf ranges i.toNat) < 0) :=
            fun hx => hm.1 (Or.inl hx)
          have h1 : bLE (minOf ranges i.toNat) (.fin v) :=
            cmp_nonneg_iff.mp (by omega)
          have h3 : bLT (.fin w) (.fin v) :=
            bLT_of_bLT_of_bLE hw2
              (bLE_trans (maxOf_le_minOf hwo hcp (by omega)) h1)
          rw [bLT_fin_iff] at h3
          omega
        rw [← hsel.1]
        cases lossy with
        | false =>
          rw [if_neg (by simp), rsContains_single]
          omega
        | true =>
          rw [if_pos rfl]
          by_cases hlt : i < (ranges.length : Int) - 1
          · rw [if_pos hlt]
            simp only [List.singleton_append, rsContains_cons, rsContains_single,
              make_irange]
            omega
          · rw [if_neg hlt]
            simp only [List.append_nil, rsContains_single]
            omega

/-- Witness for C1 (amended): the 3-partition fixture, predicate
`key >= 0`, partition 1 whose span holds the satisfying key 10; the
returned full-span rangeset contains partition 1. -/
theorem pruning_soundness_witness :
    rsContains [make_irange 0 2 IR_COMPLETE] 1 :=
  pruning_soundness prelRange3.ranges 0 10 BTGreaterEqualStrategyNumber 1
    [make_irange 0 2 IR_COMPLETE] false (by decide) (by decide) (by decide)
    (by decide) (by decide) (by decide)

/-! ### C9: coverage of the canonical rangeset constructions -/

theorem covSet_mem_iff (rs : RangeSet) (x : Nat) :
    x ∈ covSet rs ↔ ∃ r ∈ rs, r.lower ≤ x ∧ x ≤ r.upper := by
  simp [covSet, Finset.mem_biUnion, List.mem_toFinset, Finset.mem_Icc]

theorem tagAt_isSome_iff (rs : RangeSet) (x : Nat) :
    (tagAt rs x).isSome = true ↔ x ∈ covSet rs := by
  rw [covSet_mem_iff]
  constructor
  · intro h
    rcases hf : rs.find? (fun r => decide (r.lower ≤ x ∧ x ≤ r.upper)) with _ | r
    · rw [tagAt, hf] at h
      exact absurd h (by simp)
    · refine ⟨r, List.mem_of_find?_eq_some hf, ?_⟩
      have := List.find?_some hf
      simpa using this
  · rintro ⟨r, hr, h1, h2⟩
    rcases hf : rs.find? (fun r2 => decide (r2.lower ≤ x ∧ x ≤ r2.upper)) with _ | r2
    · have := List.find?_eq_none.mp hf r hr
      simp [h1, h2] at this
    · rw [tagAt, hf]
      simp

theorem upper_le_maxUpper {rs : RangeSet} {r : IRange} (hr : r ∈ rs) :
    r.upper ≤ maxUpper rs := by
  induction rs with
  | nil => cases hr
  | cons a t ih =>
    rcases List.mem_cons.mp hr with rfl | hr2
    · exact le_max_left _ _
    · exact le_trans (ih hr2) (le_max_right _ _)

theorem mem_covSet_le_maxUpper {rs : RangeSet} {x : Nat} (h : x ∈ covSet rs) :
    x ≤ maxUpper rs := by
  rcases (covSet_mem_iff rs x).mp h with ⟨r, hr, _, h2⟩
  exact le_trans h2 (upper_le_maxUpper hr)

theorem addPointRev_props (acc : RangeSet) (i : Nat) (t : Option Tag)
    (hinv : ∀ r ∈ acc, r.lower ≤ r.upper) :
    (∀ r ∈ addPointRev acc i t, r.lower ≤ r.upper) ∧
    (∀ x ∈ covSet acc, x ∈ covSet (addPointRev acc i t)) ∧
    (∀ tg, t = some tg → i ∈ covSet (addPointRev acc i t)) := by
  cases t with
  | none =>
    exact ⟨hinv, fun x hx => hx, fun tg h => absurd h (by simp)⟩
  | some tg =>
    cases acc with
    | nil =>
      refine ⟨?_, ?_, ?_⟩
      · intro r hr
        rcases List.mem_singleton.mp hr with rfl
        exact le_refl i
      · intro x hx
        rcases (covSet_mem_iff _ _).mp hx with ⟨r, hr, _⟩
        cases hr
      · intro tg2 _
        exact (covSet_mem_iff _ _).mpr
          ⟨⟨i, i, tg⟩, List.mem_cons_self _ _, le_refl i, le_refl i⟩
    | cons r rest =>
      have hru : r.lower ≤ r.upper := hinv r (List.mem_cons_self _ _)
      by_cases hc : r.upper + 1 = i ∧ r.tag = tg
      · simp only [addPointRev, if_pos hc]
        refine ⟨?_, ?_, ?_⟩
        · intro r2 hr2
          rcases List.mem_cons.mp hr2 with rfl | hr3
          · show r.lower ≤ i
            omega
          · exact hinv r2 (List.mem_cons_of_mem _ hr3)
        · intro x hx
          rcases (covSet_mem_iff _ _).mp hx with ⟨r2, hr2, h1, h2⟩
          rcases List.mem_cons.mp hr2 with rfl | hr3
          · exact (covSet_mem_iff _ _).mpr ⟨⟨r2.lower, i, tg⟩, List.mem_cons_self _ _,
              h1, by
              show x ≤ i
              omega⟩
          · exact (covSet_mem_iff _ _).mpr
              ⟨r2, List.mem_cons_of_mem _ hr3, h1, h2⟩
        · intro tg2 _
          exact (covSet_mem_iff _ _).mpr ⟨⟨r.lower, i, tg⟩, List.mem_cons_self _ _, by
            show r.lower ≤ i
            omega, le_refl i⟩
      · simp only [addPointRev, if_neg hc]
        refine ⟨?_, ?_, ?_⟩
        · intro r2 hr2
          rcases List.mem_cons.mp hr2 with rfl | hr3
          · exact le_refl i
          · exact hinv r2 hr3
        · intro x hx
          rcases (covSet_mem_iff _ _).mp hx with ⟨r2, hr2, h1, h2⟩
          exact (covSet_mem_iff _ _).mpr ⟨r2, List.mem_cons_of_mem _ hr2, h1, h2⟩
        · intro tg2 _
          exact (covSet_mem_iff _ _).mpr
            ⟨⟨i, i, tg⟩, List.mem_cons_self _ _, le_refl i, le_refl i⟩

theorem canonAcc_props (f : Nat → Option Tag) : ∀ n,
    (∀ r ∈ canonAcc f n, r.lower ≤ r.upper) ∧
    (∀ x, x < n → (f x).isSome = true → x ∈ covSet (canonAcc f n)) := by
  intro n
  induction n with
  | zero =>
    constructor
    · intro r hr
      cases hr
    · intro x hx
      omega
  | succ n ih =>
    have hstep : canonAcc f (n + 1) = addPointRev (canonAcc f n) n (f n) := by
      unfold canonAcc
      rw [List.range_succ, List.foldl_append]
      rfl
    obtain ⟨hinv, hmem⟩ := ih
    obtain ⟨hinv2, hsuper, hself⟩ := addPointRev_props (canonAcc f n) n (f n) hinv
    rw [hstep]
    refine ⟨hinv2, ?_⟩
    intro x hx hsome
    by_cases hxn : x = n
    · subst hxn
      rcases ht : f x with _ | tg
      · rw [ht] at hsome
        exact absurd hsome (by simp)
      · rw [← ht]
        exact hself tg ht
    · exact hsuper x (hmem x (by omega) hsome)

theorem covSet_canonicalize (f : Nat → Option Tag) (bound : Nat) (x : Nat)
    (hx : x ≤ bound) (hsome : (f x).isSome = true) :
    x ∈ covSet (canonicalize f bound) := by
  unfold canonicalize
  have h := (canonAcc_props f (bound + 1)).2 x (by omega) hsome
  rcases (covSet_mem_iff _ _).mp h with ⟨r, hr, h1, h2⟩
  exact (covSet_mem_iff _ _).mpr ⟨r, List.mem_reverse.mpr hr, h1, h2⟩

theorem covSet_union_super_left (a b : RangeSet) :
    ∀ x ∈ covSet a, x ∈ covSet (irange_list_union a b) := by
  intro x hx
  unfold irange_list_union
  apply covSet_canonicalize
  · exact le_trans (mem_covSet_le_maxUpper hx) (le_max_left _ _)
  · have hs := (tagAt_isSome_iff a x).mpr hx
    rcases h1 : tagAt a x with _ | t1
    · rw [h1] at hs
      exact absurd hs (by simp)
    · rcases h2 : tagAt b x with _ | t2 <;> simp [unionTag, h1, h2]

theorem covSet_union_super_right (a b : RangeSet) :
    ∀ x ∈ covSet b, x ∈ covSet (irange_list_union a b) := by
  intro x hx
  unfold irange_list_union
  apply covSet_canonicalize
  · exact le_trans (mem_covSet_le_maxUpper hx) (le_max_right _ _)
  · have hs := (tagAt_isSome_iff b x).mpr hx
    rcases h2 : tagAt b x with _ | t2
    · rw [h2] at hs
      exact absurd hs (by simp)
    · rcases h1 : tagAt a x with _ | t1 <;> simp [unionTag, h1, h2]

theorem covSet_or_foldl_super (ws : List WrapperNode) :
    ∀ (s : RangeSet), ∀ x ∈ covSet s,
      x ∈ covSet (ws.foldl (fun acc u => irange_list_union acc u.rangeset) s) := by
  induction ws with
  | nil => exact fun s x hx => hx
  | cons a t ih =>
    intro s x hx
    exact ih _ x (covSet_union_super_left _ _ x hx)

theorem covSet_mem_or_foldl (w : WrapperNode) :
    ∀ (ws : List WrapperNode), w ∈ ws → ∀ (s : RangeSet), ∀ x ∈ covSet w.rangeset,
      x ∈ covSet (ws.foldl (fun acc u => irange_list_union acc u.rangeset) s) := by
  intro ws
  induction ws with
  | nil =>
    intro h
    cases h
  | cons a t ih =>
    intro hw s x hx
    rcases List.mem_cons.mp hw with rfl | hw2
    · exact covSet_or_foldl_super t _ x (covSet_union_super_right _ _ x hx)
    · exact ih hw2 _ x hx

/-! ### C9: rational bounds used by the selectivity formulas -/

theorem factor_in_unit (s : ℚ) (lw lt : ℕ) (h0 : 0 ≤ s) (h1 : s ≤ 1)
    (hle : lw ≤ lt) :
    0 ≤ 1 - s * (lw : ℚ) / (lt : ℚ) ∧ 1 - s * (lw : ℚ) / (lt : ℚ) ≤ 1 := by
  rcases Nat.eq_zero_or_pos lt with hz | hpos
  · subst hz
    have hlw : lw = 0 := by omega
    subst hlw
    norm_num
  · have hlt : (0 : ℚ) < (lt : ℚ) := by exact_mod_cast hpos
    have hfrac0 : 0 ≤ s * (lw : ℚ) / (lt : ℚ) := by positivity
    have hfrac1 : s * (lw : ℚ) / (lt : ℚ) ≤ 1 := by
      rw [div_le_one hlt]
      calc s * (lw : ℚ) ≤ 1 * (lw : ℚ) :=
            mul_le_mul_of_nonneg_right h1 (by positivity)
        _ = (lw : ℚ) := one_mul _
        _ ≤ (lt : ℚ) := by exact_mod_cast hle
    constructor <;> linarith

theorem foldl_mul_unit (f : WrapperNode → ℚ) :
    ∀ (ws : List WrapperNode) (q : ℚ), 0 ≤ q → q ≤ 1 →
      (∀ w ∈ ws, 0 ≤ f w ∧ f w ≤ 1) →
      0 ≤ ws.foldl (fun acc w => acc * f w) q ∧
        ws.foldl (fun acc w => acc * f w) q ≤ 1 := by
  intro ws
  induction ws with
  | nil => exact fun q h0 h1 _ => ⟨h0, h1⟩
  | cons a t ih =>
    intro q h0 h1 hall
    have ha := hall a (by simp)
    refine ih (q * f a) (mul_nonneg h0 ha.1) ?_ (fun x hx => hall x (by simp [hx]))
    calc q * f a ≤ 1 * 1 := mul_le_mul h1 ha.2 ha.1 (by norm_num)
      _ = 1 := by norm_num

/-! ### C9: node collections -/

theorem allNodes_eq (w : WrapperNode) : allNodes w = w :: allNodesList w.args := by
  cases w
  rfl

theorem self_mem_allNodesList {w : WrapperNode} :
    ∀ {ws : List WrapperNode}, w ∈ ws → w ∈ allNodesList ws := by
  intro ws
  induction ws with
  | nil =>
    intro h
    cases h
  | cons a t ih =>
    intro h
    rcases List.mem_cons.mp h with rfl | h2
    · show w ∈ allNodes w ++ allNodesList t
      rw [allNodes_eq]
      exact List.mem_append_left _ (List.mem_cons_self _ _)
    · show w ∈ allNodes a ++ allNodesList t
      exact List.mem_append_right _ (ih h2)

/-! ### C9: per-handler wrapper shape and selectivity bounds -/

theorem handle_const_args (cxt : WalkerContext) (c : PConst) (strategy : Nat)
    (w : WrapperNode) (h : handle_const cxt c strategy = some w) :
    w.args = [] := by
  unfold handle_const at h
  dsimp only at h
  split_ifs at h <;>
    (try split at h) <;>
    (try split_ifs at h) <;>
    (try split at h) <;>
    first
      | (injection h with h2; subst h2; rfl)
      | simp at h

theorem handle_opexpr_bounds (cxt : WalkerContext) (s : Nat) (k b : Bool)
    (param : ParamKind) (w : WrapperNode)
    (h : handle_opexpr cxt s k b param = some w) :
    w.args = [] ∧ 0 ≤ w.paramsel ∧ w.paramsel ≤ 1 := by
  cases param with
  | PKConst c =>
    unfold handle_opexpr at h
    dsimp only at h
    split_ifs at h
    · rcases hc : handle_const cxt c s with _ | w0 <;> rw [hc] at h
      · exact absurd h (by simp)
      · have ha := handle_const_args cxt c s w0 hc
        have hp := handle_const_paramsel_bounds cxt c s w0 hc
        have hw0 : w0.withOrig (some (.eopexpr s k b (.PKConst c))) = w := by
          simpa using h
        subst hw0
        cases w0 with
        | mk o a r p g =>
          simp only [WrapperNode.args] at ha
          simp only [WrapperNode.paramsel] at hp
          exact ⟨ha, hp⟩
    · injection h with h2
      subst h2
      refine ⟨rfl, by norm_num [WrapperNode.paramsel]⟩
  | PKParamOrVar =>
    unfold handle_opexpr at h
    dsimp only at h
    split_ifs at h <;> injection h with h2 <;> subst h2
    · exact ⟨rfl, by
        simpa [WrapperNode.paramsel] using estimate_paramsel_bounds cxt.prel s⟩
    · exact ⟨rfl, by norm_num [WrapperNode.paramsel]⟩
  | PKOther =>
    unfold handle_opexpr at h
    dsimp only at h
    split_ifs at h <;> injection h with h2 <;> subst h2 <;>
      exact ⟨rfl, by norm_num [WrapperNode.paramsel]⟩

theorem arrexpr_fold_sel_bounds (cxt : WalkerContext) (s : Nat) (u : Bool)
    (et : Nat) :
    ∀ (elems : List (Int × Bool)) (rs : RangeSet) (sel : ℚ)
      (out : RangeSet × ℚ), 0 ≤ sel → sel ≤ 1 →
      arrexpr_fold cxt s u et elems rs sel = some out →
      0 ≤ out.2 ∧ out.2 ≤ 1 := by
  intro elems
  induction elems with
  | nil =>
    intro rs sel out h0 h1 h
    simp only [arrexpr_fold] at h
    have h2 : (rs, sel) = out := by simpa using h
    rw [← h2]
    exact ⟨h0, h1⟩
  | cons p rest ihr =>
    intro rs sel out h0 h1 h
    obtain ⟨v, isn⟩ := p
    simp only [arrexpr_fold] at h
    rcases hc : handle_const cxt ⟨v, isn, et, 0⟩ s with _ | sub <;> rw [hc] at h
    · simp at h
    · have hb := handle_const_paramsel_bounds cxt _ s sub hc
      exact ihr _ _ out (le_trans h0 (le_max_left _ _)) (max_le h1 hb.2) h

theorem handle_arrexpr_bounds (cxt : WalkerContext) (s : Nat) (u k : Bool)
    (arr : Option ArrayConst) (w : WrapperNode)
    (h : handle_arrexpr cxt s u k arr = some w) :
    w.args = [] ∧ 0 ≤ w.paramsel ∧ w.paramsel ≤ 1 := by
  cases arr with
  | none =>
    unfold handle_arrexpr at h
    dsimp only at h
    split_ifs at h <;> injection h with h2 <;> subst h2 <;>
      exact ⟨rfl, by
        simpa [WrapperNode.paramsel] using estimate_paramsel_bounds cxt.prel s⟩
  | some a =>
    unfold handle_arrexpr at h
    dsimp only at h
    by_cases hk : k = true
    · rw [if_pos hk] at h
      rcases hf : arrexpr_fold cxt s u a.elemtype a.elems
          (if u = true then [] else list_make1_irange_full cxt.prel IR_COMPLETE) 0
          with _ | out <;> rw [hf] at h
      · simp at h
      · obtain ⟨rs, sel⟩ := out
        have hw2 : WrapperNode.mk (some (.earrexpr s u k (some a))) [] rs
            (if a.elems.length = 0 then 0 else sel) false = w := by
          simpa using h
        subst hw2
        refine ⟨rfl, ?_⟩
        by_cases hz : a.elems.length = 0
        · simp only [WrapperNode.paramsel, if_pos hz]
          norm_num
        · have hb := arrexpr_fold_sel_bounds cxt s u a.elemtype a.elems _ 0
            (rs, sel) (le_refl 0) (by norm_num) hf
          simp only [WrapperNode.paramsel]
          rw [if_neg hz]
          exact hb
    · rw [if_neg hk] at h
      injection h with h2
      subst h2
      exact ⟨rfl, by
        simpa [WrapperNode.paramsel] using estimate_paramsel_bounds cxt.prel s⟩

theorem handle_boolexpr_args (cxt : WalkerContext) (op : BoolOp)
    (origArgs : List PExpr) (ws : List WrapperNode) :
    (handle_boolexpr cxt op origArgs ws).args = ws := by
  unfold handle_boolexpr
  dsimp only
  split_ifs <;> rfl

theorem handle_boolexpr_paramsel (cxt : WalkerContext) (op : BoolOp)
    (origArgs : List PExpr) (ws : List WrapperNode)
    (hws : ∀ w ∈ ws, 0 ≤ w.paramsel ∧ w.paramsel ≤ 1) :
    0 ≤ (handle_boolexpr cxt op origArgs ws).paramsel ∧
      (handle_boolexpr cxt op origArgs ws).paramsel ≤ 1 := by
  cases op with
  | AND_EXPR =>
    unfold handle_boolexpr
    simp only [reduceCtorEq, if_false, if_pos rfl]
    rw [foldl_pair_split
          (fun acc (x : WrapperNode) => irange_list_intersection acc x.rangeset)
          (fun acc (x : WrapperNode) => acc * x.paramsel) ws _ 1]
    exact foldl_mul_unit WrapperNode.paramsel ws 1 (by norm_num) (by norm_num) hws
  | OR_EXPR =>
    unfold handle_boolexpr
    simp only [reduceCtorEq, if_false, if_pos rfl]
    rw [foldl_pair_split
          (fun acc (x : WrapperNode) => irange_list_union acc x.rangeset)
          (fun acc (_ : WrapperNode) => acc) ws _ 1]
    have hfac : ∀ u ∈ ws,
        0 ≤ 1 - u.paramsel * (irange_list_length u.rangeset : ℚ) /
          (irange_list_length
            (ws.foldl (fun acc x => irange_list_union acc x.rangeset) []) : ℚ) ∧
        1 - u.paramsel * (irange_list_length u.rangeset : ℚ) /
          (irange_list_length
            (ws.foldl (fun acc x => irange_list_union acc x.rangeset) []) : ℚ) ≤ 1 := by
      intro u hu
      refine factor_in_unit u.paramsel _ _ (hws u hu).1 (hws u hu).2 ?_
      exact Finset.card_le_card (fun x hx => covSet_mem_or_foldl u ws hu [] x hx)
    have hP := foldl_mul_unit
      (fun u => 1 - u.paramsel * (irange_list_length u.rangeset : ℚ) /
        (irange_list_length
          (ws.foldl (fun acc x => irange_list_union acc x.rangeset) []) : ℚ))
      ws 1 (by norm_num) (by norm_num) hfac
    constructor
    · show 0 ≤ 1 - ws.foldl
        (fun acc u => acc * (1 - u.paramsel * (irange_list_length u.rangeset : ℚ) /
          (irange_list_length
            (ws.foldl (fun acc x => irange_list_union acc x.rangeset) []) : ℚ))) 1
      linarith [hP.2]
    · show 1 - ws.foldl
        (fun acc u => acc * (1 - u.paramsel * (irange_list_length u.rangeset : ℚ) /
          (irange_list_length
            (ws.foldl (fun acc x => irange_list_union acc x.rangeset) []) : ℚ))) 1 ≤ 1
      linarith [hP.1]
  | NOT_EXPR =>
    unfold handle_boolexpr
    simp only [reduceCtorEq, if_false]
    rw [foldl_pair_split
          (fun _ (_ : WrapperNode) => list_make1_irange_full cxt.prel IR_LOSSY)
          (fun acc (_ : WrapperNode) => acc) ws _ 1]
    have hid : ∀ (vs : List WrapperNode) (q : ℚ),
        vs.foldl (fun acc (_ : WrapperNode) => acc) q = q := by
      intro vs
      induction vs with
      | nil => intro q; rfl
      | cons a t ih => intro q; exact ih q
    show 0 ≤ ws.foldl (fun acc (_ : WrapperNode) => acc) 1 ∧
      ws.foldl (fun acc (_ : WrapperNode) => acc) 1 ≤ 1
    rw [hid ws 1]
    norm_num

theorem walk_paramsel_aux :
    ∀ (μ : Nat) (cxt : WalkerContext) (e : PExpr) (w : WrapperNode),
      pexprSize e ≤ μ → walk_expr_tree cxt e = some w →
      ∀ x ∈ allNodes w, 0 ≤ x.paramsel ∧ x.paramsel ≤ 1 := by
  intro μ
  induction μ using Nat.strong_induction_on with
  | _ μ ih =>
    intro cxt e w hsz hw x hx
    cases e with
    | econst c =>
      simp only [walk_expr_tree] at hw
      rw [allNodes_eq, handle_const_args cxt c _ w hw] at hx
      have hxw : x = w := by simpa [allNodesList] using hx
      rw [hxw]
      exact handle_const_paramsel_bounds cxt c _ w hw
    | eopexpr s k b param =>
      simp only [walk_expr_tree] at hw
      obtain ⟨hargs, hb⟩ := handle_opexpr_bounds cxt s k b param w hw
      rw [allNodes_eq, hargs] at hx
      have hxw : x = w := by simpa [allNodesList] using hx
      rw [hxw]
      exact hb
    | earrexpr s u k arr =>
      simp only [walk_expr_tree] at hw
      obtain ⟨hargs, hb⟩ := handle_arrexpr_bounds cxt s u k arr w hw
      rw [allNodes_eq, hargs] at hx
      have hxw : x = w := by simpa [allNodesList] using hx
      rw [hxw]
      exact hb
    | eother =>
      simp only [walk_expr_tree] at hw
      have hw2 : WrapperNode.mk (some .eother) []
          (list_make1_irange_full cxt.prel IR_LOSSY) 1 false = w := by
        simpa using hw
      subst hw2
      have hxw : x = WrapperNode.mk (some .eother) []
          (list_make1_irange_full cxt.prel IR_LOSSY) 1 false := by
        simpa [allNodes_eq, WrapperNode.args, allNodesList] using hx
      subst hxw
      norm_num [WrapperNode.paramsel]
    | eboolexpr op args =>
      simp only [walk_expr_tree] at hw
      rcases Option.map_eq_some'.mp hw with ⟨ws, hws, hmk⟩
      have hsz2 : pexprListSize args < μ := by
        have h4 : pexprSize (.eboolexpr op args) = 1 + pexprListSize args := rfl
        omega
      have key : ∀ (es : List PExpr), pexprListSize es < μ →
          ∀ (vs : List WrapperNode), walk_args cxt es = some vs →
          ∀ y ∈ allNodesList vs, 0 ≤ y.paramsel ∧ y.paramsel ≤ 1 := by
        intro es
        induction es with
        | nil =>
          intro _ vs hvs y hy
          have hnil : vs = [] := by
            simpa [walk_args] using hvs.symm
          subst hnil
          exact absurd hy (by simp [allNodesList])
        | cons e0 es0 ihes =>
          intro hsz3 vs hvs y hy
          simp only [walk_args] at hvs
          rcases hwe : walk_expr_tree cxt e0 with _ | w0 <;> rw [hwe] at hvs
          · exact absurd hvs (by simp)
          · rcases hwa : walk_args cxt es0 with _ | vs0 <;> rw [hwa] at hvs
            · exact absurd hvs (by simp)
            · have hv : w0 :: vs0 = vs := by simpa using hvs
              subst hv
              have hsplit : pexprListSize (e0 :: es0) =
                  pexprSize e0 + pexprListSize es0 := rfl
              rcases List.mem_append.mp (by
                  simpa [allNodesList] using hy) with hy1 | hy2
              · exact ih (pexprSize e0) (by omega) cxt e0 w0 (le_refl _) hwe y hy1
              · exact ihes (by omega) vs0 hwa y hy2
      subst hmk
      rw [allNodes_eq, handle_boolexpr_args] at hx
      rcases List.mem_cons.mp hx with rfl | hx2
      · exact handle_boolexpr_paramsel cxt op args ws
          (fun u hu => key args hsz2 ws hws u (self_mem_allNodesList hu))
      · exact key args hsz2 ws hws x hx2

/-- Model-level bound: in the rational model, every WrapperNode produced by
`walk_expr_tree` (and every node of its args tree) has `paramsel` in
`[0, 1]`. This holds only because the model maps division by zero to 0; it
shows the invariant cannot be refuted inside the model, while the program's
IEEE arithmetic breaks it on the empty-union OR corner established by
`or_empty_union_zero_denominator` below. -/
theorem walker_paramsel_in_unit (cxt : WalkerContext) (e : PExpr)
    (w : WrapperNode) (hw : walk_expr_tree cxt e = some w) :
    ∀ x ∈ allNodes w, 0 ≤ x.paramsel ∧ x.paramsel ≤ 1 :=
  walk_paramsel_aux (pexprSize e) cxt e w (le_refl _) hw

/-- Concrete instance of the model-level bound at a boolean-true leaf. -/
theorem walker_paramsel_in_unit_witness :
    0 ≤ (WrapperNode.mk none [] [make_irange 0 2 IR_LOSSY] 1 false).paramsel ∧
      (WrapperNode.mk none [] [make_irange 0 2 IR_LOSSY] 1 false).paramsel ≤ 1 :=
  walker_paramsel_in_unit cxtRange3 (.econst ⟨1, false, BOOLOID, 0⟩)
    (WrapperNode.mk none [] [make_irange 0 2 IR_LOSSY] 1 false)
    (by with_unfolding_all rfl)
    (WrapperNode.mk none [] [make_irange 0 2 IR_LOSSY] 1 false)
    (by simp [allNodes, allNodesList])

/-- C9: the claimed invariant `paramsel ∈ [0, 1]` is intended by the spec
but violated by the program: the zero-denominator corner of the OR
selectivity loop is reachable. Walking `key = 100 OR key = 200` over the
3-partition scheme covering `[0, 30)` produces an OR wrapper whose two
children both have empty rangesets, so the union rangeset is empty and
`totallen = irange_list_length(result->rangeset) = 0` while the per-child
loop still executes; at pg_pathman.c line 962 the C program then computes
`arg->paramsel * (double) len / (double) totallen = 0.0 / 0.0 = NaN`, and
the node's final `paramsel` is NaN, outside `[0, 1]`. The rational model
maps that division to 0, which is why the invariant is provable in-model
(`walker_paramsel_in_unit`) yet false of the program. -/
theorem or_empty_union_zero_denominator :
    walk_expr_tree cxtRange3 (.eboolexpr OR_EXPR [keyEq 100, keyEq 200]) =
      some (WrapperNode.mk (some (.eboolexpr OR_EXPR [keyEq 100, keyEq 200]))
        [WrapperNode.mk (some (keyEq 100)) [] [] (1 / 3) false,
         WrapperNode.mk (some (keyEq 200)) [] [] (1 / 3) false] [] 0 false) ∧
    irange_list_length ([] : RangeSet) = 0 ∧
    ([WrapperNode.mk (some (keyEq 100)) [] [] ((1 : ℚ) / 3) false,
      WrapperNode.mk (some (keyEq 200)) [] [] (1 / 3) false] ≠ []) := by
  refine ⟨by with_unfolding_all rfl, by decide, by simp⟩

end PgPathman
